import Mathlib

/-!
# go-casify: a shallow embedding of `casify.go`

A Go `string` is a sequence of bytes, modelled as `List Nat`.  A `rune` that the
program can see is always the result of decoding, hence a Unicode scalar value,
modelled by `Char`.  A slice expression that Go would reject at run time with an
out-of-range panic makes the embedded function return `none`.

The package `unicode` is data (the tables of the Unicode Character Database); it
is taken as the parameter `UnicodeTables`.  The packages `unicode/utf8` and
`strings` are embedded from their Go definitions.

A valid string is `utf8 cs`, the encoding of a sequence `cs` of codepoints; the
properties of the functions on valid strings are stated for all `cs`.  Facts
about the tables that a property depends on (`AsciiStd`, `RuneErrorStd`,
`CaseLaws`, `TitleLaws`) are hypotheses; `excerptTables` is a table that has all
of them.
-/

namespace Casify

/-! ## Data model -/

/-- A Go string: its bytes, in order. -/
abbrev Bytes := List Nat

/-- The functions of Go's package `unicode` that `casify.go` and the `strings`
functions it calls depend on.  They are lookups in the Unicode tables. -/
structure UnicodeTables where
  /-- Go `unicode.IsLetter` (category L). -/
  IsLetter : Char → Bool
  /-- Go `unicode.IsNumber` (category N). -/
  IsNumber : Char → Bool
  /-- Go `unicode.IsDigit` (category Nd). -/
  IsDigit : Char → Bool
  /-- Go `unicode.IsUpper` (category Lu). -/
  IsUpper : Char → Bool
  /-- Go `unicode.IsLower` (category Ll). -/
  IsLower : Char → Bool
  /-- Go `unicode.IsSpace`. -/
  IsSpace : Char → Bool
  /-- Go `unicode.ToLower`. -/
  ToLower : Char → Char
  /-- Go `unicode.ToUpper`. -/
  ToUpper : Char → Char
  /-- Go `unicode.ToTitle`. -/
  ToTitle : Char → Char

/-! ## Package `unicode/utf8` -/

/-- Go `utf8.RuneError`, U+FFFD. -/
def RuneError : Char := Char.ofNat 0xFFFD

/-- Go `utf8.RuneLen`: the number of bytes of the encoding of `r`.  The `-1`
results of the Go function are for values that are not scalar values. -/
def RuneLen (r : Char) : Nat :=
  if r.toNat ≤ 0x7F then 1
  else if r.toNat ≤ 0x7FF then 2
  else if r.toNat ≤ 0xFFFF then 3
  else 4

/-- Go `utf8.AppendRune(nil, r)` (what `strings.Builder.WriteRune` writes). -/
def EncodeRune (r : Char) : Bytes :=
  let i := r.toNat
  if i ≤ 0x7F then [i]
  else if i ≤ 0x7FF then [0xC0 + i / 64, 0x80 + i % 64]
  else if i ≤ 0xFFFF then [0xE0 + i / 4096, 0x80 + i / 64 % 64, 0x80 + i % 64]
  else [0xF0 + i / 262144, 0x80 + i / 4096 % 64, 0x80 + i / 64 % 64, 0x80 + i % 64]

/-- The table `first` of `unicode/utf8` together with `acceptRanges`: for a
leading byte, the size of the sequence and the accepted range of the second
byte; `none` for a byte that cannot start a multi-byte sequence. -/
def firstInfo (s0 : Nat) : Option (Nat × Nat × Nat) :=
  if 0xC2 ≤ s0 ∧ s0 ≤ 0xDF then some (2, 0x80, 0xBF)
  else if s0 = 0xE0 then some (3, 0xA0, 0xBF)
  else if 0xE1 ≤ s0 ∧ s0 ≤ 0xEC then some (3, 0x80, 0xBF)
  else if s0 = 0xED then some (3, 0x80, 0x9F)
  else if 0xEE ≤ s0 ∧ s0 ≤ 0xEF then some (3, 0x80, 0xBF)
  else if s0 = 0xF0 then some (4, 0x90, 0xBF)
  else if 0xF1 ≤ s0 ∧ s0 ≤ 0xF3 then some (4, 0x80, 0xBF)
  else if s0 = 0xF4 then some (4, 0x80, 0x8F)
  else none

/-- Continuation byte test: `locb <= b && b <= hicb`. -/
def isCont (b : Nat) : Bool := 0x80 ≤ b && b ≤ 0xBF

/-- Go `utf8.DecodeRuneInString`: the first rune of `s` and its width in bytes;
`(RuneError, 0)` for the empty string and `(RuneError, 1)` for an encoding that
is not valid. -/
def DecodeRuneInString (s : Bytes) : Char × Nat :=
  match s with
  | [] => (RuneError, 0)
  | s0 :: rest =>
    if s0 ≤ 0x7F then (Char.ofNat s0, 1)
    else
      match firstInfo s0 with
      | none => (RuneError, 1)
      | some (sz, lo, hi) =>
        match rest with
        | [] => (RuneError, 1)
        | s1 :: rest1 =>
          if s1 < lo ∨ hi < s1 then (RuneError, 1)
          else if sz ≤ 2 then (Char.ofNat (s0 % 32 * 64 + s1 % 64), 2)
          else
            match rest1 with
            | [] => (RuneError, 1)
            | s2 :: rest2 =>
              if !isCont s2 then (RuneError, 1)
              else if sz ≤ 3 then
                (Char.ofNat (s0 % 16 * 4096 + s1 % 64 * 64 + s2 % 64), 3)
              else
                match rest2 with
                | [] => (RuneError, 1)
                | s3 :: _ =>
                  if !isCont s3 then (RuneError, 1)
                  else
                    (Char.ofNat (s0 % 8 * 262144 + s1 % 64 * 4096 + s2 % 64 * 64 + s3 % 64), 4)

/-- The pairs `(i, ch)` of `for i, ch := range s`, for the part of the string
that starts at byte offset `i`, of which `skip` bytes belong to the rune decoded
last.  The statement decodes a rune at offset `i` and goes on at `i + width`. -/
def rangeFrom : Nat → Nat → Bytes → List (Nat × Char)
  | _, _, [] => []
  | i, 0, b :: bs =>
    (i, (DecodeRuneInString (b :: bs)).1) ::
      rangeFrom (i + 1) ((DecodeRuneInString (b :: bs)).2 - 1) bs
  | i, skip + 1, _ :: bs => rangeFrom (i + 1) skip bs

/-- The iterations of `for i, ch := range s`. -/
def rangeStr (s : Bytes) : List (Nat × Char) := rangeFrom 0 0 s

/-- The runes of a string, as `range` yields them. -/
def runes (s : Bytes) : List Char := (rangeStr s).map Prod.snd

/-- The UTF-8 encoding of a sequence of codepoints: a valid Go string. -/
def utf8 (cs : List Char) : Bytes :=
  match cs with
  | [] => []
  | c :: rest => EncodeRune c ++ utf8 rest

/-- The slice expression `s[lo:hi]`; `none` is the run-time panic. -/
def slice (s : Bytes) (lo hi : Nat) : Option Bytes :=
  if lo ≤ hi ∧ hi ≤ s.length then some ((s.take hi).drop lo) else none

/-! ## Package `strings` -/

/-- Go `strings.Join`. -/
def Join : List Bytes → Bytes → Bytes
  | [], _ => []
  | [w], _ => w
  | w :: v :: ws, sep => w ++ sep ++ Join (v :: ws) sep

/-- The runes that Go `strings.Map` writes, for a mapping that is a closure over
one variable: the mapping is called once per rune, in order; `st` is the value
of the closure's variable and `f` returns its new value with the rune to
write. -/
def mapRunes {σ : Type} (f : σ → Char → σ × Char) : σ → List Char → List Char
  | _, [] => []
  | st, c :: cs => (f st c).2 :: mapRunes f (f st c).1 cs

/-- Go `strings.Map(mapping, s)` with a stateful mapping: the mapped runes of
`s`, written with `WriteRune`. -/
def MapWith {σ : Type} (f : σ → Char → σ × Char) (init : σ) (s : Bytes) : Bytes :=
  utf8 (mapRunes f init (runes s))

/-- Go `strings.Map(mapping, s)` with a pure mapping. -/
def Map (f : Char → Char) (s : Bytes) : Bytes :=
  MapWith (fun (_ : Unit) c => ((), f c)) () s

/-- Go `strings.ToLower`: `Map(unicode.ToLower, s)` (the fast path for ASCII
strings computes the same string). -/
def ToLower (T : UnicodeTables) (s : Bytes) : Bytes := Map T.ToLower s

/-- Go `strings.ToUpper`: `Map(unicode.ToUpper, s)`. -/
def ToUpper (T : UnicodeTables) (s : Bytes) : Bytes := Map T.ToUpper s

/-- Go `strings.isSeparator`. -/
def isSeparator (T : UnicodeTables) (r : Char) : Bool :=
  if r.toNat ≤ 0x7F then
    if 48 ≤ r.toNat ∧ r.toNat ≤ 57 then false
    else if 97 ≤ r.toNat ∧ r.toNat ≤ 122 then false
    else if 65 ≤ r.toNat ∧ r.toNat ≤ 90 then false
    else if r.toNat = 95 then false
    else true
  else if T.IsLetter r || T.IsDigit r then false
  else T.IsSpace r

/-- The closure of Go `strings.Title`, over its variable `prev`: the new value
of `prev`, which is `r` on both paths, and the rune returned. -/
def titleStep (T : UnicodeTables) (prev r : Char) : Char × Char :=
  (r, if isSeparator T prev then T.ToTitle r else r)

/-- Go `strings.Title`; `prev` starts as a space. -/
def Title (T : UnicodeTables) (s : Bytes) : Bytes :=
  MapWith (titleStep T) (Char.ofNat 32) s

/-! ## `casify.go` -/

/-- Go `isLowerOrNumber`. -/
def isLowerOrNumber (T : UnicodeTables) (ch : Char) : Bool :=
  T.IsLower ch || T.IsNumber ch

/-- The variables that the closure `processNextWord` and the loop of `Convert`
share. -/
structure ConvState where
  /-- The slice `words`. -/
  words : List Bytes
  /-- The byte offset `prevWordStart`. -/
  prevWordStart : Nat
deriving DecidableEq, Repr

/-- The closure `processNextWord` of `Convert`. -/
def processNextWord (s : Bytes) (cb : Bytes → Bytes) (st : ConvState) (wordEnd : Nat) :
    Option ConvState :=
  match slice s st.prevWordStart wordEnd with
  | none => none
  | some word =>
    if word.length > 0 then some ⟨st.words ++ [cb word], wordEnd⟩
    else some ⟨st.words, wordEnd⟩

/-- One iteration of the loop of `Convert`, at offset `i` with rune `ch`. -/
def convStep (T : UnicodeTables) (s : Bytes) (cb : Bytes → Bytes) (st : ConvState)
    (i : Nat) (ch : Char) : Option ConvState :=
  let nextChOffset := i + RuneLen ch
  match slice s nextChOffset s.length with
  | none => none
  | some tail =>
    let nextCh := (DecodeRuneInString tail).1
    if !T.IsLetter ch && !T.IsNumber ch then
      match processNextWord s cb st i with
      | none => none
      | some st1 => some ⟨st1.words, nextChOffset⟩
    else if T.IsUpper ch && isLowerOrNumber T nextCh then
      processNextWord s cb st i
    else if isLowerOrNumber T ch && T.IsUpper nextCh then
      processNextWord s cb st nextChOffset
    else some st

/-- The loop `for i, ch := range s` of `Convert`, over the iterations left. -/
def convLoop (T : UnicodeTables) (s : Bytes) (cb : Bytes → Bytes) :
    ConvState → List (Nat × Char) → Option ConvState
  | st, [] => some st
  | st, (i, ch) :: rest =>
    match convStep T s cb st i ch with
    | none => none
    | some st1 => convLoop T s cb st1 rest

/-- The words of `Convert` after its last `processNextWord(len(s))`. -/
def convWords (T : UnicodeTables) (s : Bytes) (cb : Bytes → Bytes) : Option (List Bytes) :=
  match convLoop T s cb ⟨[], 0⟩ (rangeStr s) with
  | none => none
  | some st =>
    match processNextWord s cb st s.length with
    | none => none
    | some st1 => some st1.words

/-- Go `Convert`. -/
def Convert (T : UnicodeTables) (s sep : Bytes) (cb : Bytes → Bytes) : Option Bytes :=
  match convWords T s cb with
  | none => none
  | some words => some (Join words sep)

/-- The closure of `Untitle`, over its variable `prev`: the new value of `prev`,
which is `r` on both paths, and the rune returned. -/
def untitleStep (T : UnicodeTables) (prev r : Char) : Char × Char :=
  (r, if !T.IsLetter prev && !T.IsDigit prev then T.ToLower r else r)

/-- Go `Untitle`; `prev` starts as `rune(0)`. -/
def Untitle (T : UnicodeTables) (s : Bytes) : Bytes :=
  MapWith (untitleStep T) (Char.ofNat 0) s

/-- Go `SnakeCase`. -/
def SnakeCase (T : UnicodeTables) (s : Bytes) : Option Bytes :=
  Convert T s [95] (ToLower T)

/-- Go `UpperSnakeCase`. -/
def UpperSnakeCase (T : UnicodeTables) (s : Bytes) : Option Bytes :=
  Convert T s [95] (ToUpper T)

/-- Go `KebabCase`. -/
def KebabCase (T : UnicodeTables) (s : Bytes) : Option Bytes :=
  Convert T s [45] (ToLower T)

/-- Go `UpperKebabCase`. -/
def UpperKebabCase (T : UnicodeTables) (s : Bytes) : Option Bytes :=
  Convert T s [45] (ToUpper T)

/-- Go `UpperCamelCase`. -/
def UpperCamelCase (T : UnicodeTables) (s : Bytes) : Option Bytes :=
  Convert T s [] (fun w => Title T (ToLower T w))

/-- Go `CamelCase`. -/
def CamelCase (T : UnicodeTables) (s : Bytes) : Option Bytes :=
  match Convert T s [] (fun w => Title T (ToLower T w)) with
  | none => none
  | some r => some (Untitle T r)

/-! ## The tokenizer on codepoints -/

/-- Whether `c` is a letter or a number: the codepoints that `Convert` keeps in
words.  A separator codepoint is one for which this is `false`. -/
def isWordRune (T : UnicodeTables) (c : Char) : Bool := T.IsLetter c || T.IsNumber c

/-- The rune that `Convert` looks ahead to: the first codepoint of what follows,
`RuneError` when nothing follows. -/
def nextRune : List Char → Char
  | [] => RuneError
  | c :: _ => c

/-- The iterations of `range` over a valid string, from byte offset `i`. -/
def withOffsets : Nat → List Char → List (Nat × Char)
  | _, [] => []
  | i, c :: cs => (i, c) :: withOffsets (i + RuneLen c) cs

/-- What closing the span `cur` appends to the words: nothing when it is empty. -/
def emit : List Char → List (List Char)
  | [] => []
  | c :: cs => [c :: cs]

/-- The tokenizer on codepoints: the words that the scan of `rest` closes when
the codepoints of the open span are `cur`.  It is proved below to be what
`Convert` computes on the encoding of a codepoint sequence. -/
def splitWords (T : UnicodeTables) : List Char → List Char → List (List Char)
  | cur, [] => emit cur
  | cur, ch :: rest =>
    if !T.IsLetter ch && !T.IsNumber ch then emit cur ++ splitWords T [] rest
    else if T.IsUpper ch && isLowerOrNumber T (nextRune rest) then
      emit cur ++ splitWords T [ch] rest
    else if isLowerOrNumber T ch && T.IsUpper (nextRune rest) then
      emit (cur ++ [ch]) ++ splitWords T [] rest
    else splitWords T (cur ++ [ch]) rest

/-- The rest of `Convert` from a state of its loop: the iterations left, the
last `processNextWord(len(s))`, and the words then. -/
def finish (T : UnicodeTables) (s : Bytes) (cb : Bytes → Bytes) (st : ConvState)
    (its : List (Nat × Char)) : Option (List Bytes) :=
  match convLoop T s cb st its with
  | none => none
  | some st1 =>
    match processNextWord s cb st1 s.length with
    | none => none
    | some st2 => some st2.words

/-! ## Facts about the Unicode tables -/

/-- Whether the codepoint of `c` lies in `lo..hi`. -/
def inRange (lo hi : Nat) (c : Char) : Bool := lo ≤ c.toNat && c.toNat ≤ hi

/-- The tables restricted to ASCII: what package `unicode` answers for U+0000 to
U+007F; outside ASCII nothing is classified and nothing is mapped. -/
def asciiTables : UnicodeTables where
  IsLetter c := inRange 65 90 c || inRange 97 122 c
  IsNumber c := inRange 48 57 c
  IsDigit c := inRange 48 57 c
  IsUpper c := inRange 65 90 c
  IsLower c := inRange 97 122 c
  IsSpace c := inRange 9 13 c || inRange 32 32 c
  ToLower c := if inRange 65 90 c then Char.ofNat (c.toNat + 32) else c
  ToUpper c := if inRange 97 122 c then Char.ofNat (c.toNat - 32) else c
  ToTitle c := if inRange 97 122 c then Char.ofNat (c.toNat - 32) else c

/-- The tables `T` give the standard answers on ASCII. -/
structure AsciiStd (T : UnicodeTables) : Prop where
  letter : ∀ c : Char, c.toNat ≤ 0x7F → T.IsLetter c = asciiTables.IsLetter c
  number : ∀ c : Char, c.toNat ≤ 0x7F → T.IsNumber c = asciiTables.IsNumber c
  digit : ∀ c : Char, c.toNat ≤ 0x7F → T.IsDigit c = asciiTables.IsDigit c
  upper : ∀ c : Char, c.toNat ≤ 0x7F → T.IsUpper c = asciiTables.IsUpper c
  lower : ∀ c : Char, c.toNat ≤ 0x7F → T.IsLower c = asciiTables.IsLower c
  space : ∀ c : Char, c.toNat ≤ 0x7F → T.IsSpace c = asciiTables.IsSpace c
  toLower : ∀ c : Char, c.toNat ≤ 0x7F → T.ToLower c = asciiTables.ToLower c
  toUpper : ∀ c : Char, c.toNat ≤ 0x7F → T.ToUpper c = asciiTables.ToUpper c
  toTitle : ∀ c : Char, c.toNat ≤ 0x7F → T.ToTitle c = asciiTables.ToTitle c

/-- U+FFFD REPLACEMENT CHARACTER has category So: it is no letter and no
number. -/
structure RuneErrorStd (T : UnicodeTables) : Prop where
  letter : T.IsLetter RuneError = false
  number : T.IsNumber RuneError = false
  upper : T.IsUpper RuneError = false
  lower : T.IsLower RuneError = false

/-- The tables `T` with the standard answers on ASCII. -/
def asciiOn (T : UnicodeTables) : UnicodeTables where
  IsLetter c := if c.toNat ≤ 0x7F then asciiTables.IsLetter c else T.IsLetter c
  IsNumber c := if c.toNat ≤ 0x7F then asciiTables.IsNumber c else T.IsNumber c
  IsDigit c := if c.toNat ≤ 0x7F then asciiTables.IsDigit c else T.IsDigit c
  IsUpper c := if c.toNat ≤ 0x7F then asciiTables.IsUpper c else T.IsUpper c
  IsLower c := if c.toNat ≤ 0x7F then asciiTables.IsLower c else T.IsLower c
  IsSpace c := if c.toNat ≤ 0x7F then asciiTables.IsSpace c else T.IsSpace c
  ToLower c := if c.toNat ≤ 0x7F then asciiTables.ToLower c else T.ToLower c
  ToUpper c := if c.toNat ≤ 0x7F then asciiTables.ToUpper c else T.ToUpper c
  ToTitle c := if c.toNat ≤ 0x7F then asciiTables.ToTitle c else T.ToTitle c

/-- Whether the tables are looked up at `c` in a string of ASCII codepoints:
`c` is ASCII, or the `RuneError` that stands for the end of the string. -/
def isStdPoint (c : Char) : Bool := c.toNat ≤ 0x7F || c.toNat = 0xFFFD

/-- The tables `T` with the standard answers on ASCII and at U+FFFD. -/
def stdOn (T : UnicodeTables) : UnicodeTables where
  IsLetter c := if isStdPoint c then asciiTables.IsLetter c else T.IsLetter c
  IsNumber c := if isStdPoint c then asciiTables.IsNumber c else T.IsNumber c
  IsDigit c := if c.toNat ≤ 0x7F then asciiTables.IsDigit c else T.IsDigit c
  IsUpper c := if isStdPoint c then asciiTables.IsUpper c else T.IsUpper c
  IsLower c := if isStdPoint c then asciiTables.IsLower c else T.IsLower c
  IsSpace c := if c.toNat ≤ 0x7F then asciiTables.IsSpace c else T.IsSpace c
  ToLower c := if c.toNat ≤ 0x7F then asciiTables.ToLower c else T.ToLower c
  ToUpper c := if c.toNat ≤ 0x7F then asciiTables.ToUpper c else T.ToUpper c
  ToTitle c := if c.toNat ≤ 0x7F then asciiTables.ToTitle c else T.ToTitle c

/-- The bytes of a string literal. -/
def str (s : String) : Bytes := utf8 s.data

/-- Facts about the general categories: an uppercase letter (Lu) is neither a
lowercase letter (Ll) nor a number (N), and a lowercase letter is a letter. -/
structure CaseLaws (T : UnicodeTables) : Prop where
  upper_not_lower : ∀ c : Char, T.IsUpper c = true → T.IsLower c = false
  upper_not_number : ∀ c : Char, T.IsUpper c = true → T.IsNumber c = false
  lower_letter : ∀ c : Char, T.IsLower c = true → T.IsLetter c = true

/-- A fact about the tables: the lowercase form of a letter or number is no
separator for `strings.Title`. -/
def TitleLaws (T : UnicodeTables) : Prop :=
  ∀ c : Char, isWordRune T c = true → isSeparator T (T.ToLower c) = false

/-- An excerpt of the Unicode tables: ASCII, and outside ASCII the codepoints
listed here with their entries in `UnicodeData.txt`.
* U+00B2 SUPERSCRIPT TWO: category No, a number that is not a decimal digit.
* U+0130 LATIN CAPITAL LETTER I WITH DOT ABOVE: Lu, lowercase U+0069.
* U+01C4, U+01C5, U+01C6 (the letter DZ WITH CARON): Lu, Lt, Ll; uppercase
  U+01C4, titlecase U+01C5, lowercase U+01C6.
* U+0410 to U+042F: Cyrillic capital letters, Lu, lowercase 32 further.
* U+0430 to U+044F: Cyrillic small letters, Ll, uppercase 32 before.
* U+24B6 CIRCLED LATIN CAPITAL LETTER A: So, lowercase U+24D0.
* U+24D0 CIRCLED LATIN SMALL LETTER A: So, uppercase U+24B6.
Every other codepoint is left unclassified and unmapped. -/
def excerptTables : UnicodeTables where
  IsLetter c := inRange 65 90 c || inRange 97 122 c || inRange 0x130 0x130 c ||
    inRange 0x1C4 0x1C6 c || inRange 0x410 0x44F c
  IsNumber c := inRange 48 57 c || inRange 0xB2 0xB2 c
  IsDigit c := inRange 48 57 c
  IsUpper c := inRange 65 90 c || inRange 0x130 0x130 c || inRange 0x1C4 0x1C4 c ||
    inRange 0x410 0x42F c
  IsLower c := inRange 97 122 c || inRange 0x1C6 0x1C6 c || inRange 0x430 0x44F c
  IsSpace c := inRange 9 13 c || inRange 32 32 c
  ToLower c :=
    if inRange 65 90 c || inRange 0x410 0x42F c then Char.ofNat (c.toNat + 32)
    else if inRange 0x130 0x130 c then Char.ofNat 0x69
    else if inRange 0x1C4 0x1C5 c then Char.ofNat 0x1C6
    else if inRange 0x24B6 0x24B6 c then Char.ofNat 0x24D0
    else c
  ToUpper c :=
    if inRange 97 122 c || inRange 0x430 0x44F c then Char.ofNat (c.toNat - 32)
    else if inRange 0x1C5 0x1C6 c then Char.ofNat 0x1C4
    else if inRange 0x24D0 0x24D0 c then Char.ofNat 0x24B6
    else c
  ToTitle c :=
    if inRange 97 122 c || inRange 0x430 0x44F c then Char.ofNat (c.toNat - 32)
    else if inRange 0x1C4 0x1C6 c then Char.ofNat 0x1C5
    else if inRange 0x24D0 0x24D0 c then Char.ofNat 0x24B6
    else c

/-! ## Vocabulary of the claims -/

/-- Whether `c` is a letter or a decimal digit: the test of `Untitle`. -/
def isLetterOrDigit (T : UnicodeTables) (c : Char) : Bool := T.IsLetter c || T.IsDigit c

/-- Whether the list of words `ws` can be cut in two lists of words that make up
`left` and `right`. -/
def hasCut (ws : List Bytes) (left right : Bytes) : Bool :=
  (List.range (ws.length + 1)).any
    (fun k => (ws.take k).flatten == left && (ws.drop k).flatten == right)

/-- Whether `Convert` places a word boundary between the codepoints `pre` and
the codepoints `post` of the string `pre ++ post`: its words are words that make
up the letters and numbers of `pre`, followed by words that make up those of
`post`. -/
def boundaryBetween (T : UnicodeTables) (pre post : List Char) : Bool :=
  match convWords T (utf8 (pre ++ post)) id with
  | none => false
  | some ws =>
    hasCut ws (utf8 (pre.filter (isWordRune T))) (utf8 (post.filter (isWordRune T)))

/-- A word in title case: the title-case form of the lowercase form of its first
codepoint, then the lowercase forms of the others. -/
def titleWord (T : UnicodeTables) : List Char → List Char
  | [] => []
  | c :: w => T.ToTitle (T.ToLower c) :: w.map T.ToLower

/-- The codepoints of `strings.Join` of encoded words: the words with `sep`
between them. -/
def joinRunes : List (List Char) → List Char → List Char
  | [], _ => []
  | [w], _ => w
  | w :: v :: ws, sep => w ++ sep ++ joinRunes (v :: ws) sep

/-- The string `cs` is stable under the case mappings: the lowercase form of
each of its letters and numbers is a letter or number, is not uppercase, and has
the same uppercase form. -/
def CaseStable (T : UnicodeTables) (cs : List Char) : Prop :=
  ∀ c ∈ cs, isWordRune T c = true →
    isWordRune T (T.ToLower c) = true ∧ T.IsUpper (T.ToLower c) = false ∧
      T.ToUpper (T.ToLower c) = T.ToUpper c

/-- The relation of C10 between a codepoint of `s` and the codepoint at the same
position of the second string: a number is replaced by a lowercase letter, and
any other codepoint is kept. -/
def numberToLower (T : UnicodeTables) (c d : Char) : Prop :=
  if T.IsNumber c = true then T.IsLower d = true else d = c

/-- Two codepoints that the rules of `Convert` cannot tell apart. -/
def sameClass (T : UnicodeTables) (c d : Char) : Prop :=
  isWordRune T c = isWordRune T d ∧ T.IsUpper c = T.IsUpper d ∧
    isLowerOrNumber T c = isLowerOrNumber T d

/-- Facts about the lowercase mapping: it maps a lowercase form to itself, it
keeps a codepoint on its side of the test "letter or decimal digit", and it maps
letters and numbers to letters and numbers. -/
structure LowerLaws (T : UnicodeTables) : Prop where
  idem : ∀ c : Char, T.ToLower (T.ToLower c) = T.ToLower c
  letterOrDigit : ∀ c : Char, isLetterOrDigit T (T.ToLower c) = isLetterOrDigit T c
  wordRune : ∀ c : Char, isWordRune T c = true → isWordRune T (T.ToLower c) = true

/-- The excerpt of the tables, and U+1D400 MATHEMATICAL BOLD CAPITAL A: category
Lu, an uppercase letter, with no case mapping in `UnicodeData.txt`. -/
def mathTables : UnicodeTables where
  IsLetter c := excerptTables.IsLetter c || inRange 0x1D400 0x1D400 c
  IsNumber c := excerptTables.IsNumber c
  IsDigit c := excerptTables.IsDigit c
  IsUpper c := excerptTables.IsUpper c || inRange 0x1D400 0x1D400 c
  IsLower c := excerptTables.IsLower c
  IsSpace c := excerptTables.IsSpace c
  ToLower c := excerptTables.ToLower c
  ToUpper c := excerptTables.ToUpper c
  ToTitle c := excerptTables.ToTitle c

/-- The codepoint `s` is nowhere twice in a row in `x`. -/
def NoDouble (s : Char) (x : List Char) : Prop := ∀ l r : List Char, x ≠ l ++ s :: s :: r

/-- Whether the first codepoint of `v` passes the test `p`. -/
def startsWith (p : Char → Bool) : List Char → Bool
  | [] => false
  | c :: _ => p c

/-- Whether no word of one codepoint is directly followed by another word of
one codepoint. -/
def noAdjacentSingles : List (List Char) → Bool
  | v :: v2 :: vs => !(v.length == 1 && v2.length == 1) && noAdjacentSingles (v2 :: vs)
  | _ => true

/-- A codepoint that continues a word of a camel-case string: a letter or
number that is not uppercase and is a lowercase letter or a number. -/
def isQuiet (T : UnicodeTables) (c : Char) : Bool :=
  isWordRune T c && !T.IsUpper c && isLowerOrNumber T c

/-- A codepoint that starts a word of a camel-case string: an uppercase letter
that is neither a lowercase letter nor a number. -/
def isCapital (T : UnicodeTables) (c : Char) : Bool :=
  isWordRune T c && T.IsUpper c && !isLowerOrNumber T c

/-- A capitalised word: a capital, then quiet codepoints. -/
def isCapWord (T : UnicodeTables) : List Char → Bool
  | [] => false
  | c :: r => isCapital T c && r.all (isQuiet T)

/-- The string `cs` keeps its words under the camel case: for each letter or
number `c` of `cs`, the lowercase form of `c` is a letter or number that is not
uppercase and is a lowercase letter or a number, it is a letter or a decimal
digit, it is no separator for `strings.Title`, and it is its own lowercase form;
the title-case form of the lowercase form of `c` is a letter or a decimal digit,
and its lowercase form is the lowercase form of `c`. -/
def CamelStable (T : UnicodeTables) (cs : List Char) : Prop :=
  ∀ c ∈ cs, isWordRune T c = true →
    isQuiet T (T.ToLower c) = true ∧ isLetterOrDigit T (T.ToLower c) = true ∧
    isSeparator T (T.ToLower c) = false ∧ T.ToLower (T.ToLower c) = T.ToLower c ∧
    isLetterOrDigit T (T.ToTitle (T.ToLower c)) = true ∧
    T.ToLower (T.ToTitle (T.ToLower c)) = T.ToLower c

/-- The words after the first begin with a codepoint whose form in a title is a
capital, and no two adjacent ones have one codepoint. -/
def CamelShape (T : UnicodeTables) (ws : List (List Char)) : Prop :=
  (∀ v ∈ ws.tail, startsWith (fun c => isCapital T (T.ToTitle (T.ToLower c))) v = true) ∧
    noAdjacentSingles ws.tail = true

/-- The codepoints of `CamelCase` when the words are `ws`: the first word in
lower case, then the other words in title case. -/
def camelRunes (T : UnicodeTables) : List (List Char) → List Char
  | [] => []
  | w :: ws => w.map T.ToLower ++ (ws.map (titleWord T)).flatten

/-- Whether an uppercase letter of the string, not the first codepoint, neither
directly follows a lowercase letter or number nor is directly followed by one;
`nextRune` is `RuneError` at the end of the string. -/
def loneCapital (T : UnicodeTables) : List Char → Bool
  | a :: b :: rest =>
    (!isLowerOrNumber T a && T.IsUpper b && !isLowerOrNumber T (nextRune rest)) ||
      loneCapital T (b :: rest)
  | _ => false

/-- Whether `Convert` begins a word at the letter or number `ch` of a string of
letters and numbers, when `prev` is the codepoint before `ch`, if any, and `next`
the rune after it: at the start of the string, after a lowercase letter or
number when `ch` is uppercase (the third rule), and when `ch` is uppercase and
`next` is a lowercase letter or number (the second rule). -/
def beginsWord (T : UnicodeTables) (prev : Option Char) (ch next : Char) : Bool :=
  match prev with
  | none => true
  | some p => (isLowerOrNumber T p && T.IsUpper ch) || (T.IsUpper ch && isLowerOrNumber T next)

/-- The words of a string of letters and numbers in title case, written one
after the other, codepoint by codepoint: the title-case form of the lowercase
form where a word begins, the lowercase form elsewhere. -/
def titleRunes (T : UnicodeTables) : Option Char → List Char → List Char
  | _, [] => []
  | prev, ch :: rest =>
    (if beginsWord T prev ch (nextRune rest) then T.ToTitle (T.ToLower ch) else T.ToLower ch) ::
      titleRunes T (some ch) rest

/-- A codepoint as the camel case writes it: a letter or number that is not
uppercase and is its own lowercase form; or one that is uppercase, is neither a
lowercase letter nor a number, is the title-case form of its lowercase form, and
is not its own lowercase form. -/
def CamelLetter (T : UnicodeTables) (y : Char) : Prop :=
  isWordRune T y = true ∧
    ((T.IsUpper y = false ∧ T.ToLower y = y) ∨
      (T.IsUpper y = true ∧ isLowerOrNumber T y = false ∧
        T.ToTitle (T.ToLower y) = y ∧ T.ToLower y ≠ y))

/-- A string as the camel case writes it: each codepoint is a `CamelLetter`
whose lowercase form is no separator for `strings.Title` and is a letter or a
decimal digit, as is the title-case form of its lowercase form; and the first
codepoint is the lowercase form of the title-case form of its lowercase form. -/
def CamelWritten (T : UnicodeTables) (ys : List Char) : Prop :=
  (∀ y ∈ ys, CamelLetter T y ∧ isSeparator T (T.ToLower y) = false ∧
    isLetterOrDigit T (T.ToLower y) = true ∧
    isLetterOrDigit T (T.ToTitle (T.ToLower y)) = true) ∧
  (∀ y ∈ ys.take 1, T.ToLower (T.ToTitle (T.ToLower y)) = y)

/-- For each letter or number `c` of the string, the title-case form of the
lowercase form of `c` is an uppercase letter that is neither a lowercase letter
nor a number, or it is the lowercase form of `c` itself. -/
def TitleStable (T : UnicodeTables) (cs : List Char) : Prop :=
  ∀ c ∈ cs, isWordRune T c = true →
    isCapital T (T.ToTitle (T.ToLower c)) = true ∨ T.ToTitle (T.ToLower c) = T.ToLower c

/-! ## UTF-8: decoding an encoding -/

theorem char_range (c : Char) : c.toNat < 0xD800 ∨ (0xDFFF < c.toNat ∧ c.toNat < 0x110000) := c.valid

theorem EncodeRune_length (c : Char) : (EncodeRune c).length = RuneLen c := by
  unfold EncodeRune RuneLen
  simp only []
  split_ifs <;> rfl

theorem ofNat_eq (c : Char) (n : Nat) (h : n = c.toNat) : Char.ofNat n = c := by
  subst h; exact Char.ofNat_toNat c

theorem Decode_encode (c : Char) (rest : Bytes) :
    DecodeRuneInString (EncodeRune c ++ rest) = (c, RuneLen c) := by
  have hv := char_range c
  unfold EncodeRune RuneLen
  simp only []
  by_cases h1 : c.toNat ≤ 0x7F
  · rw [if_pos h1, if_pos h1]
    simp only [DecodeRuneInString, List.cons_append, List.nil_append]
    rw [if_pos h1, Char.ofNat_toNat]
  · rw [if_neg h1, if_neg h1]
    by_cases h2 : c.toNat ≤ 0x7FF
    · rw [if_pos h2, if_pos h2]
      have f : firstInfo (0xC0 + c.toNat / 64) = some (2, 0x80, 0xBF) := by
        unfold firstInfo
        rw [if_pos (by omega)]
      simp only [DecodeRuneInString, List.cons_append, List.nil_append, f]
      rw [if_neg (by omega), if_neg (by omega), if_pos (by omega), ofNat_eq c _ (by omega)]
    · rw [if_neg h2, if_neg h2]
      by_cases h3 : c.toNat ≤ 0xFFFF
      · rw [if_pos h3, if_pos h3]
        have f : ∃ lo hi, firstInfo (0xE0 + c.toNat / 4096) = some (3, lo, hi) ∧
            lo ≤ 0x80 + c.toNat / 64 % 64 ∧ 0x80 + c.toNat / 64 % 64 ≤ hi := by
          unfold firstInfo
          rw [if_neg (by omega)]
          by_cases g1 : 0xE0 + c.toNat / 4096 = 0xE0
          · rw [if_pos g1]; exact ⟨_, _, rfl, by omega, by omega⟩
          rw [if_neg g1]
          by_cases g2 : 0xE1 ≤ 0xE0 + c.toNat / 4096 ∧ 0xE0 + c.toNat / 4096 ≤ 0xEC
          · rw [if_pos g2]; exact ⟨_, _, rfl, by omega, by omega⟩
          rw [if_neg g2]
          by_cases g3 : 0xE0 + c.toNat / 4096 = 0xED
          · rw [if_pos g3]; exact ⟨_, _, rfl, by omega, by omega⟩
          rw [if_neg g3, if_pos (by omega)]; exact ⟨_, _, rfl, by omega, by omega⟩
        obtain ⟨lo, hi, f, hlo, hhi⟩ := f
        simp only [DecodeRuneInString, List.cons_append, List.nil_append, f, isCont]
        rw [if_neg (by omega), if_neg (by omega), if_neg (by omega), if_neg (by simp; omega),
          if_pos (by omega), ofNat_eq c _ (by omega)]
      · rw [if_neg h3, if_neg h3]
        have f : ∃ lo hi, firstInfo (0xF0 + c.toNat / 262144) = some (4, lo, hi) ∧
            lo ≤ 0x80 + c.toNat / 4096 % 64 ∧ 0x80 + c.toNat / 4096 % 64 ≤ hi := by
          unfold firstInfo
          rw [if_neg (by omega), if_neg (by omega), if_neg (by omega), if_neg (by omega),
            if_neg (by omega)]
          by_cases g1 : 0xF0 + c.toNat / 262144 = 0xF0
          · rw [if_pos g1]; exact ⟨_, _, rfl, by omega, by omega⟩
          rw [if_neg g1]
          by_cases g2 : 0xF1 ≤ 0xF0 + c.toNat / 262144 ∧ 0xF0 + c.toNat / 262144 ≤ 0xF3
          · rw [if_pos g2]; exact ⟨_, _, rfl, by omega, by omega⟩
          rw [if_neg g2, if_pos (by omega)]; exact ⟨_, _, rfl, by omega, by omega⟩
        obtain ⟨lo, hi, f, hlo, hhi⟩ := f
        simp only [DecodeRuneInString, List.cons_append, List.nil_append, f, isCont]
        rw [if_neg (by omega), if_neg (by omega), if_neg (by omega), if_neg (by simp; omega),
          if_neg (by omega), if_neg (by simp; omega), ofNat_eq c _ (by omega)]

theorem RuneLen_pos (c : Char) : 0 < RuneLen c := by
  unfold RuneLen; split_ifs <;> decide

theorem utf8_append (a b : List Char) : utf8 (a ++ b) = utf8 a ++ utf8 b := by
  induction a with
  | nil => rfl
  | cons c a ih => simp [utf8, ih]

theorem utf8_length_pos (c : Char) (cs : List Char) : 0 < (utf8 (c :: cs)).length := by
  have := RuneLen_pos c
  simp [utf8, EncodeRune_length]; omega

theorem rangeFrom_skip (pre rest : Bytes) (i : Nat) :
    rangeFrom i pre.length (pre ++ rest) = rangeFrom (i + pre.length) 0 rest := by
  induction pre generalizing i with
  | nil => rfl
  | cons b pre ih =>
    show rangeFrom (i + 1) pre.length (pre ++ rest) = _
    rw [ih]; congr 1; simp; omega

theorem rangeFrom_utf8 (cs : List Char) (i : Nat) :
    rangeFrom i 0 (utf8 cs) = withOffsets i cs := by
  induction cs generalizing i with
  | nil => rfl
  | cons c cs ih =>
    have hd := Decode_encode c (utf8 cs)
    have hl := EncodeRune_length c
    have hp := RuneLen_pos c
    show rangeFrom i 0 (EncodeRune c ++ utf8 cs) = _
    cases he : EncodeRune c with
    | nil => rw [he] at hl; simp at hl; omega
    | cons b bs =>
      rw [he] at hd hl
      show (i, (DecodeRuneInString (b :: (bs ++ utf8 cs))).1) ::
        rangeFrom (i + 1) ((DecodeRuneInString (b :: (bs ++ utf8 cs))).2 - 1) (bs ++ utf8 cs) = _
      rw [show b :: (bs ++ utf8 cs) = b :: bs ++ utf8 cs from rfl, hd]
      have hb : RuneLen c - 1 = bs.length := by simp at hl; omega
      simp only [hb, rangeFrom_skip, ih, withOffsets]
      congr 2; simp at hl; omega

theorem rangeStr_utf8 (cs : List Char) : rangeStr (utf8 cs) = withOffsets 0 cs :=
  rangeFrom_utf8 cs 0

theorem withOffsets_snd (cs : List Char) (i : Nat) : (withOffsets i cs).map Prod.snd = cs := by
  induction cs generalizing i with
  | nil => rfl
  | cons c cs ih => simp [withOffsets, ih]

theorem runes_utf8 (cs : List Char) : runes (utf8 cs) = cs := by
  simp [runes, rangeStr_utf8, withOffsets_snd]

theorem Decode_utf8 (cs : List Char) : (DecodeRuneInString (utf8 cs)).1 = nextRune cs := by
  cases cs with
  | nil => rfl
  | cons c cs => show (DecodeRuneInString (EncodeRune c ++ utf8 cs)).1 = c; rw [Decode_encode]

theorem slice_mid (a b c : Bytes) :
    slice (a ++ b ++ c) a.length (a.length + b.length) = some b := by
  unfold slice
  rw [if_pos (by simp)]
  simp [List.take_append_eq_append_take, List.take_of_length_le]

theorem slice_tail (a b : Bytes) : slice (a ++ b) a.length (a ++ b).length = some b := by
  have := slice_mid a b []
  simpa using this

/-! ## `Convert` on a valid string is the tokenizer on its codepoints -/

theorem processNextWord_utf8 (cb : Bytes → Bytes) (a w b : List Char) (W : List Bytes) :
    processNextWord (utf8 (a ++ w ++ b)) cb ⟨W, (utf8 a).length⟩ (utf8 (a ++ w)).length =
      some ⟨W ++ (emit w).map (fun x => cb (utf8 x)), (utf8 (a ++ w)).length⟩ := by
  unfold processNextWord
  simp only [utf8_append, List.length_append, slice_mid]
  cases w with
  | nil => simp [utf8, emit]
  | cons c w =>
    have := utf8_length_pos c w
    simp [emit, this]

theorem finish_utf8 (T : UnicodeTables) (cb : Bytes → Bytes) (rest pre cur : List Char)
    (W : List Bytes) :
    finish T (utf8 (pre ++ cur ++ rest)) cb ⟨W, (utf8 pre).length⟩
        (withOffsets (utf8 (pre ++ cur)).length rest) =
      some (W ++ (splitWords T cur rest).map (fun x => cb (utf8 x))) := by
  induction rest generalizing pre cur W with
  | nil =>
    have h := processNextWord_utf8 cb pre cur [] W
    simp only [List.append_nil] at h
    simp only [finish, withOffsets, convLoop, List.append_nil, h, splitWords]
  | cons ch rest ih =>
    have e1 : pre ++ cur ++ ch :: rest = (pre ++ cur ++ [ch]) ++ rest := by simp
    have hoff : (utf8 (pre ++ cur)).length + RuneLen ch = (utf8 (pre ++ cur ++ [ch])).length := by
      rw [utf8_append (pre ++ cur) [ch]]
      simp [utf8, EncodeRune_length]
    have htail : slice (utf8 (pre ++ cur ++ ch :: rest)) (utf8 (pre ++ cur ++ [ch])).length
        (utf8 (pre ++ cur ++ ch :: rest)).length = some (utf8 rest) := by
      rw [e1, utf8_append (pre ++ cur ++ [ch]) rest]
      exact slice_tail _ _
    have hp1 := processNextWord_utf8 cb pre cur (ch :: rest) W
    have hp2 := processNextWord_utf8 cb pre (cur ++ [ch]) rest W
    rw [← List.append_assoc, ← e1] at hp2
    have ih1 := ih (pre ++ cur ++ [ch]) [] (W ++ (emit cur).map (fun x => cb (utf8 x)))
    have ih2 := ih (pre ++ cur) [ch] (W ++ (emit cur).map (fun x => cb (utf8 x)))
    have ih3 := ih (pre ++ cur ++ [ch]) [] (W ++ (emit (cur ++ [ch])).map (fun x => cb (utf8 x)))
    have ih4 := ih pre (cur ++ [ch]) W
    simp only [List.append_nil, ← e1] at ih1 ih3
    rw [List.append_assoc (pre ++ cur) [ch] rest, List.singleton_append] at ih2
    rw [← List.append_assoc pre cur [ch], ← e1] at ih4
    unfold finish at ih1 ih2 ih3 ih4 ⊢
    simp only [withOffsets, convLoop, convStep, hoff, htail, Decode_utf8]
    rw [splitWords]
    by_cases c1 : (!T.IsLetter ch && !T.IsNumber ch) = true
    · simp only [if_pos c1, hp1, List.map_append, ← List.append_assoc]
      exact ih1
    · simp only [if_neg c1]
      by_cases c2 : (T.IsUpper ch && isLowerOrNumber T (nextRune rest)) = true
      · simp only [if_pos c2, hp1, List.map_append, ← List.append_assoc]
        exact ih2
      · simp only [if_neg c2]
        by_cases c3 : (isLowerOrNumber T ch && T.IsUpper (nextRune rest)) = true
        · simp only [if_pos c3, hp2, List.map_append, ← List.append_assoc]
          exact ih3
        · simp only [if_neg c3]
          exact ih4

theorem convWords_eq_finish (T : UnicodeTables) (s : Bytes) (cb : Bytes → Bytes) :
    convWords T s cb = finish T s cb ⟨[], 0⟩ (rangeStr s) := rfl

theorem convWords_utf8 (T : UnicodeTables) (cb : Bytes → Bytes) (cs : List Char) :
    convWords T (utf8 cs) cb = some ((splitWords T [] cs).map (fun x => cb (utf8 x))) := by
  have h := finish_utf8 T cb cs [] [] []
  simp only [List.nil_append, utf8, List.length_nil] at h
  rw [convWords_eq_finish, rangeStr_utf8, h]

theorem Convert_utf8 (T : UnicodeTables) (sep : Bytes) (cb : Bytes → Bytes) (cs : List Char) :
    Convert T (utf8 cs) sep cb =
      some (Join ((splitWords T [] cs).map (fun x => cb (utf8 x))) sep) := by
  simp only [Convert, convWords_utf8]

/-! ## Tables that are standard on ASCII -/

theorem asciiOn_eq (T : UnicodeTables) (hA : AsciiStd T) : asciiOn T = T := by
  cases T with
  | mk f1 f2 f3 f4 f5 f6 f7 f8 f9 =>
  obtain ⟨a1, a2, a3, a4, a5, a6, a7, a8, a9⟩ := hA
  simp only at a1 a2 a3 a4 a5 a6 a7 a8 a9
  have key : ∀ (α : Type) (f : Char → α) (g : Char → α),
      (∀ c : Char, c.toNat ≤ 0x7F → f c = g c) →
      (fun c => if c.toNat ≤ 0x7F then g c else f c) = f := by
    intro α f g h1
    funext c
    by_cases h : c.toNat ≤ 0x7F
    · rw [if_pos h]; exact (h1 c h).symm
    · rw [if_neg h]
  unfold asciiOn
  simp only
  rw [key _ f1 _ a1, key _ f2 _ a2, key _ f3 _ a3, key _ f4 _ a4, key _ f5 _ a5,
    key _ f6 _ a6, key _ f7 _ a7, key _ f8 _ a8, key _ f9 _ a9]

theorem toNat_eq_FFFD (c : Char) (h : c.toNat = 0xFFFD) : c = RuneError := by
  rw [← Char.ofNat_toNat c, h]; rfl

theorem stdOn_eq (T : UnicodeTables) (hA : AsciiStd T) (hR : RuneErrorStd T) : stdOn T = T := by
  cases T with
  | mk f1 f2 f3 f4 f5 f6 f7 f8 f9 =>
  obtain ⟨a1, a2, a3, a4, a5, a6, a7, a8, a9⟩ := hA
  obtain ⟨r1, r2, r3, r4⟩ := hR
  simp only at a1 a2 a3 a4 a5 a6 a7 a8 a9 r1 r2 r3 r4
  have key : ∀ (f : Char → Bool) (g : Char → Bool), (∀ c : Char, c.toNat ≤ 0x7F → f c = g c) →
      f RuneError = false → g RuneError = false →
      (fun c => if isStdPoint c then g c else f c) = f := by
    intro f g h1 h2 h3
    funext c
    by_cases h : isStdPoint c = true
    · rw [if_pos h]
      simp only [isStdPoint, Bool.or_eq_true, decide_eq_true_eq] at h
      rcases h with h | h
      · exact (h1 c h).symm
      · rw [toNat_eq_FFFD c h, h2, h3]
    · rw [if_neg h]
  have key2 : ∀ (α : Type) (f : Char → α) (g : Char → α), (∀ c : Char, c.toNat ≤ 0x7F → f c = g c) →
      (fun c => if c.toNat ≤ 0x7F then g c else f c) = f := by
    intro α f g h1
    funext c
    by_cases h : c.toNat ≤ 0x7F
    · rw [if_pos h]; exact (h1 c h).symm
    · rw [if_neg h]
  unfold stdOn
  simp only
  rw [key f1 _ a1 r1 rfl, key f2 _ a2 r2 rfl, key f4 _ a4 r3 rfl, key f5 _ a5 r4 rfl,
    key2 _ f3 _ a3, key2 _ f6 _ a6, key2 _ f7 _ a7, key2 _ f8 _ a8, key2 _ f9 _ a9]

/-! ## The words of the tokenizer -/

theorem Join_nil_sep (ws : List Bytes) : Join ws [] = ws.flatten := by
  induction ws with
  | nil => rfl
  | cons w ws ih =>
    cases ws with
    | nil => simp [Join]
    | cons v ws => simp only [Join, List.append_nil, ih, List.flatten_cons]

theorem utf8_flatten (ws : List (List Char)) : (ws.map utf8).flatten = utf8 ws.flatten := by
  induction ws with
  | nil => rfl
  | cons w ws ih => simp [utf8_append, ih]

theorem emit_flatten (cur : List Char) : (emit cur).flatten = cur := by
  cases cur <;> simp [emit]

theorem not_sep_iff (T : UnicodeTables) (ch : Char) :
    (!T.IsLetter ch && !T.IsNumber ch) = !isWordRune T ch := by
  simp [isWordRune]

theorem splitWords_flatten (T : UnicodeTables) (rest cur : List Char) :
    (splitWords T cur rest).flatten = cur ++ rest.filter (isWordRune T) := by
  induction rest generalizing cur with
  | nil => simp [splitWords, emit_flatten]
  | cons ch rest ih =>
    rw [splitWords, not_sep_iff]
    by_cases c0 : isWordRune T ch = true
    · rw [List.filter_cons_of_pos c0]
      simp only [c0, Bool.not_true, Bool.false_eq_true, if_false]
      split_ifs <;> simp [ih, emit_flatten]
    · rw [List.filter_cons_of_neg c0]
      simp only [Bool.not_eq_true] at c0
      simp [c0, ih, emit_flatten]

theorem asciiTables_asciiStd : AsciiStd asciiTables :=
  ⟨fun _ _ => rfl, fun _ _ => rfl, fun _ _ => rfl, fun _ _ => rfl, fun _ _ => rfl,
    fun _ _ => rfl, fun _ _ => rfl, fun _ _ => rfl, fun _ _ => rfl⟩

theorem asciiTables_runeErrorStd : RuneErrorStd asciiTables := ⟨rfl, rfl, rfl, rfl⟩

theorem mem_emit {w cur : List Char} (h : w ∈ emit cur) : w = cur ∧ cur ≠ [] := by
  cases cur with
  | nil => simp [emit] at h
  | cons c cs => simp [emit] at h; simp [h]

theorem splitWords_mem (T : UnicodeTables) (rest cur : List Char)
    (hcur : ∀ c ∈ cur, isWordRune T c = true) :
    ∀ w ∈ splitWords T cur rest, w ≠ [] ∧ ∀ c ∈ w, isWordRune T c = true := by
  induction rest generalizing cur with
  | nil =>
    intro w hw
    obtain ⟨rfl, hne⟩ := mem_emit hw
    exact ⟨hne, hcur⟩
  | cons ch rest ih =>
    have hemit : ∀ w ∈ emit cur, w ≠ [] ∧ ∀ c ∈ w, isWordRune T c = true := by
      intro w hw
      obtain ⟨rfl, hne⟩ := mem_emit hw
      exact ⟨hne, hcur⟩
    have hnil : ∀ c ∈ ([] : List Char), isWordRune T c = true := by simp
    rw [splitWords, not_sep_iff]
    by_cases c0 : isWordRune T ch = true
    · have hsnoc : ∀ c ∈ cur ++ [ch], isWordRune T c = true := by
        intro c hc
        rcases List.mem_append.1 hc with h | h
        · exact hcur c h
        · rw [List.mem_singleton.1 h]; exact c0
      have hone : ∀ c ∈ [ch], isWordRune T c = true := by
        intro c hc; rw [List.mem_singleton.1 hc]; exact c0
      simp only [c0, Bool.not_true, Bool.false_eq_true, if_false]
      split_ifs
      · intro w hw
        rcases List.mem_append.1 hw with h | h
        · exact hemit w h
        · exact ih [ch] hone w h
      · intro w hw
        rcases List.mem_append.1 hw with h | h
        · obtain ⟨rfl, hne⟩ := mem_emit h
          exact ⟨hne, hsnoc⟩
        · exact ih [] hnil w h
      · exact ih (cur ++ [ch]) hsnoc
    · simp only [Bool.not_eq_true] at c0
      simp only [c0, Bool.not_false, if_true]
      intro w hw
      rcases List.mem_append.1 hw with h | h
      · exact hemit w h
      · exact ih [] hnil w h

theorem splitWords_no_word_rune (T : UnicodeTables) (rest cur : List Char)
    (h : ∀ c ∈ rest, isWordRune T c = false) : splitWords T cur rest = emit cur := by
  induction rest generalizing cur with
  | nil => rfl
  | cons ch rest ih =>
    have h0 : isWordRune T ch = false := h ch (List.mem_cons_self _ _)
    rw [splitWords, not_sep_iff, h0]
    simp only [Bool.not_false, if_true]
    rw [ih [] (fun c hc => h c (List.mem_cons_of_mem _ hc))]
    simp [emit]

/-! ## The excerpt satisfies the facts assumed of the tables -/

theorem inRange_iff (lo hi : Nat) (c : Char) : inRange lo hi c = true ↔ lo ≤ c.toNat ∧ c.toNat ≤ hi := by
  simp [inRange]

theorem inRange_false_iff (lo hi : Nat) (c : Char) :
    inRange lo hi c = false ↔ ¬ (lo ≤ c.toNat ∧ c.toNat ≤ hi) := by
  rw [← inRange_iff]; simp

theorem inRange_of_ascii (lo hi : Nat) (c : Char) (h : c.toNat ≤ 0x7F) (hlo : 0x7F < lo) :
    inRange lo hi c = false := by
  rw [inRange_false_iff]; omega

theorem excerptTables_asciiStd : AsciiStd excerptTables := by
  have key : ∀ (c : Char), c.toNat ≤ 0x7F → ∀ lo hi : Nat, 0x7F < lo → inRange lo hi c = false :=
    fun c h lo hi hlo => inRange_of_ascii lo hi c h hlo
  constructor <;> intro c h <;> simp [excerptTables, asciiTables, key c h]

theorem excerptTables_runeErrorStd : RuneErrorStd excerptTables := ⟨rfl, rfl, rfl, rfl⟩

theorem excerptTables_caseLaws : CaseLaws excerptTables := by
  constructor <;> intro c <;>
    simp only [excerptTables, Bool.or_eq_true, Bool.or_eq_false_iff, inRange_iff,
      inRange_false_iff] <;> omega

/-! ## Word boundaries -/

theorem utf8_injective : Function.Injective utf8 := by
  intro a b h
  rw [← runes_utf8 a, ← runes_utf8 b, h]

theorem hasCut_iff (ws : List Bytes) (left right : Bytes) :
    hasCut ws left right = true ↔
      ∃ w1 w2, ws = w1 ++ w2 ∧ w1.flatten = left ∧ w2.flatten = right := by
  unfold hasCut
  simp only [List.any_eq_true, List.mem_range, Bool.and_eq_true, beq_iff_eq]
  constructor
  · rintro ⟨k, _, h1, h2⟩
    exact ⟨ws.take k, ws.drop k, (List.take_append_drop k ws).symm, h1, h2⟩
  · rintro ⟨w1, w2, rfl, h1, h2⟩
    refine ⟨w1.length, by simp; omega, ?_, ?_⟩
    · simpa using h1
    · simpa using h2

theorem hasCut_utf8_iff (W : List (List Char)) (L R : List Char) :
    hasCut (W.map utf8) (utf8 L) (utf8 R) = true ↔
      ∃ W1 W2, W = W1 ++ W2 ∧ W1.flatten = L ∧ W2.flatten = R := by
  rw [hasCut_iff]
  constructor
  · rintro ⟨w1, w2, h, h1, h2⟩
    obtain ⟨W1, W2, rfl, rfl, rfl⟩ := List.map_eq_append_iff.1 h
    rw [utf8_flatten] at h1 h2
    exact ⟨W1, W2, rfl, utf8_injective h1, utf8_injective h2⟩
  · rintro ⟨W1, W2, rfl, rfl, rfl⟩
    exact ⟨W1.map utf8, W2.map utf8, by simp, utf8_flatten W1, utf8_flatten W2⟩

theorem boundaryBetween_iff (T : UnicodeTables) (pre post : List Char) :
    boundaryBetween T pre post = true ↔
      ∃ W1 W2, splitWords T [] (pre ++ post) = W1 ++ W2 ∧
        W1.flatten = pre.filter (isWordRune T) ∧ W2.flatten = post.filter (isWordRune T) := by
  unfold boundaryBetween
  rw [convWords_utf8]
  simp only [id]
  exact hasCut_utf8_iff _ _ _

/-- Scanning an initial part: the words closed while scanning `pre`, and the open span
after it. -/
theorem splitWords_scan (T : UnicodeTables) (pre cur rest : List Char) :
    ∃ E cur1, splitWords T cur (pre ++ rest) = E ++ splitWords T cur1 rest ∧
      E.flatten ++ cur1 = cur ++ pre.filter (isWordRune T) := by
  induction pre generalizing cur with
  | nil => exact ⟨[], cur, by simp, by simp⟩
  | cons ch pre ih =>
    rw [List.cons_append, splitWords, not_sep_iff]
    by_cases c0 : isWordRune T ch = true
    · rw [List.filter_cons_of_pos c0]
      simp only [c0, Bool.not_true, Bool.false_eq_true, if_false]
      split_ifs
      · obtain ⟨E, cur1, h1, h2⟩ := ih [ch]
        exact ⟨emit cur ++ E, cur1, by rw [h1, List.append_assoc],
          by simp [emit_flatten, h2]⟩
      · obtain ⟨E, cur1, h1, h2⟩ := ih []
        exact ⟨emit (cur ++ [ch]) ++ E, cur1, by rw [h1, List.append_assoc],
          by simp [emit_flatten, h2]⟩
      · obtain ⟨E, cur1, h1, h2⟩ := ih (cur ++ [ch])
        exact ⟨E, cur1, h1, by simp [h2]⟩
    · rw [List.filter_cons_of_neg c0]
      simp only [Bool.not_eq_true] at c0
      simp only [c0, Bool.not_false, if_true]
      obtain ⟨E, cur1, h1, h2⟩ := ih []
      exact ⟨emit cur ++ E, cur1, by rw [h1, List.append_assoc], by simp [emit_flatten, h2]⟩

/-- A span that is open and not empty begins the next word. -/
theorem splitWords_head (T : UnicodeTables) (rest cur : List Char) (h : cur ≠ []) :
    ∃ x tl, splitWords T cur rest = (cur ++ x) :: tl := by
  induction rest generalizing cur with
  | nil =>
    cases cur with
    | nil => exact absurd rfl h
    | cons c cs => exact ⟨[], [], by simp [splitWords, emit]⟩
  | cons ch rest ih =>
    have hemit : emit cur = [cur] := by
      cases cur with
      | nil => exact absurd rfl h
      | cons c cs => rfl
    rw [splitWords]
    split_ifs
    · exact ⟨[], splitWords T [] rest, by simp [hemit]⟩
    · exact ⟨[], splitWords T [ch] rest, by simp [hemit]⟩
    · have : emit (cur ++ [ch]) = [cur ++ [ch]] := by
        cases cur with
        | nil => rfl
        | cons c cs => rfl
      exact ⟨[ch], splitWords T [] rest, by simp [this]⟩
    · obtain ⟨x, tl, hx⟩ := ih (cur ++ [ch]) (by simp)
      exact ⟨ch :: x, tl, by simp [hx]⟩

/-- No cut falls inside a word: a cut of `E ++ (cur ++ y) :: tl` whose left part
makes up `E.flatten ++ cur` forces `cur` to be empty. -/
theorem no_cut_inside (E W1 W2 tl : List (List Char)) (cur y : List Char) (hy : y ≠ [])
    (h : E ++ (cur ++ y) :: tl = W1 ++ W2) (h1 : W1.flatten = E.flatten ++ cur) : cur = [] := by
  rcases List.append_eq_append_iff.1 h with ⟨a, ha, hb⟩ | ⟨c, hc, hd⟩
  · -- W1 = E ++ a
    subst ha
    cases a with
    | nil =>
      simp at h1
      exact h1
    | cons z a =>
      simp only [List.cons_append, List.cons.injEq] at hb
      obtain ⟨rfl, _⟩ := hb
      have := congrArg List.length h1
      simp only [List.flatten_append, List.flatten_cons, List.length_append] at this
      have hy2 : 0 < y.length := List.length_pos.2 hy
      omega
  · -- E = W1 ++ c
    subst hc
    simp only [List.flatten_append, List.append_assoc] at h1
    have := congrArg List.length h1
    simp only [List.length_append] at this
    exact List.length_eq_zero.1 (by omega)


theorem emit_ne_nil {cur : List Char} (h : cur ≠ []) : emit cur = [cur] := by
  cases cur with
  | nil => exact absurd rfl h
  | cons c cs => rfl

/-- The scan up to and including a letter or number `a` that `b` follows: the
open span after `a` is empty exactly when the third rule closed a word after
`a`. -/
theorem splitWords_scan_snoc (T : UnicodeTables) (pre post : List Char) (a b : Char)
    (ha : isWordRune T a = true) :
    ∃ E cur2, splitWords T [] (pre ++ [a] ++ b :: post) = E ++ splitWords T cur2 (b :: post) ∧
      E.flatten ++ cur2 = (pre ++ [a]).filter (isWordRune T) ∧
      (cur2 = [] ↔ ((T.IsUpper a && isLowerOrNumber T b) = false ∧
        (isLowerOrNumber T a && T.IsUpper b) = true)) := by
  obtain ⟨E, cur1, h1, h2⟩ := splitWords_scan T pre [] (a :: b :: post)
  have hf : (pre ++ [a]).filter (isWordRune T) = pre.filter (isWordRune T) ++ [a] := by
    rw [List.filter_append, List.filter_cons_of_pos ha, List.filter_nil]
  rw [List.nil_append] at h2
  rw [List.append_assoc, List.singleton_append, h1, hf, ← h2, splitWords, not_sep_iff]
  simp only [ha, Bool.not_true, Bool.false_eq_true, if_false, nextRune]
  by_cases r2 : (T.IsUpper a && isLowerOrNumber T b) = true
  · rw [if_pos r2]
    exact ⟨E ++ emit cur1, [a], by rw [List.append_assoc], by simp [emit_flatten], by simp [r2]⟩
  · rw [if_neg r2]
    by_cases r3 : (isLowerOrNumber T a && T.IsUpper b) = true
    · rw [if_pos r3]
      refine ⟨E ++ emit (cur1 ++ [a]), [], by rw [List.append_assoc], by simp [emit_flatten], ?_⟩
      simp only [Bool.not_eq_true] at r2
      simp [r2, r3]
    · rw [if_neg r3]
      exact ⟨E, cur1 ++ [a], rfl, by simp, by simp [r3]⟩

/-! ## `Untitle` on a valid string -/

theorem Untitle_utf8 (T : UnicodeTables) (cs : List Char) :
    Untitle T (utf8 cs) = utf8 (mapRunes (untitleStep T) (Char.ofNat 0) cs) := by
  simp only [Untitle, MapWith, runes_utf8]

theorem mapRunes_length {σ : Type} (f : σ → Char → σ × Char) (st : σ) (cs : List Char) :
    (mapRunes f st cs).length = cs.length := by
  induction cs generalizing st with
  | nil => rfl
  | cons c cs ih => simp [mapRunes, ih]

theorem untitleStep_fst (T : UnicodeTables) (prev r : Char) : (untitleStep T prev r).1 = r := rfl

theorem untitleStep_snd (T : UnicodeTables) (prev r : Char) :
    (untitleStep T prev r).2 = if isLetterOrDigit T prev = false then T.ToLower r else r := by
  unfold untitleStep isLetterOrDigit
  cases T.IsLetter prev <;> cases T.IsDigit prev <;> rfl

theorem mapRunes_untitle_getD (T : UnicodeTables) (cs : List Char) (prev d : Char) (i : Nat)
    (h : i < cs.length) :
    (mapRunes (untitleStep T) prev cs).getD i d =
      if isLetterOrDigit T (if i = 0 then prev else cs.getD (i - 1) d) = false
      then T.ToLower (cs.getD i d) else cs.getD i d := by
  induction cs generalizing prev i with
  | nil => simp at h
  | cons c cs ih =>
    cases i with
    | zero => simp [mapRunes, untitleStep_snd]
    | succ j =>
      have hj : j < cs.length := by simpa using h
      simp only [mapRunes, untitleStep_fst, List.getD_cons_succ, ih c j hj]
      cases j with
      | zero => simp
      | succ k => simp

/-! ## `strings.Map`, `strings.Title` and the camel cases on a valid string -/

theorem toNat_ofNat (n : Nat) (h : n < 0xD800) : (Char.ofNat n).toNat = n := by
  have hv : n.isValidChar := Or.inl h
  unfold Char.ofNat
  rw [dif_pos hv]
  simp [Char.ofNatAux, Char.toNat, UInt32.toNat]

theorem mapRunes_pure (f : Char → Char) (cs : List Char) :
    mapRunes (fun (_ : Unit) c => ((), f c)) () cs = cs.map f := by
  induction cs with
  | nil => rfl
  | cons c cs ih => simp [mapRunes, ih]

theorem Map_utf8 (f : Char → Char) (cs : List Char) : Map f (utf8 cs) = utf8 (cs.map f) := by
  simp only [Map, MapWith, runes_utf8, mapRunes_pure]

theorem ToLower_utf8 (T : UnicodeTables) (cs : List Char) :
    ToLower T (utf8 cs) = utf8 (cs.map T.ToLower) := Map_utf8 _ _

theorem ToUpper_utf8 (T : UnicodeTables) (cs : List Char) :
    ToUpper T (utf8 cs) = utf8 (cs.map T.ToUpper) := Map_utf8 _ _

theorem Title_utf8 (T : UnicodeTables) (cs : List Char) :
    Title T (utf8 cs) = utf8 (mapRunes (titleStep T) (Char.ofNat 32) cs) := by
  simp only [Title, MapWith, runes_utf8]

theorem UpperCamelCase_utf8 (T : UnicodeTables) (cs : List Char) :
    UpperCamelCase T (utf8 cs) = some (utf8 ((splitWords T [] cs).map
      (fun w => mapRunes (titleStep T) (Char.ofNat 32) (w.map T.ToLower))).flatten) := by
  rw [UpperCamelCase, Convert_utf8, Join_nil_sep]
  simp only [ToLower_utf8, Title_utf8]
  rw [← utf8_flatten, List.map_map]
  rfl

theorem CamelCase_utf8 (T : UnicodeTables) (cs : List Char) :
    CamelCase T (utf8 cs) = some (utf8 (mapRunes (untitleStep T) (Char.ofNat 0)
      ((splitWords T [] cs).map
        (fun w => mapRunes (titleStep T) (Char.ofNat 32) (w.map T.ToLower))).flatten)) := by
  have h := UpperCamelCase_utf8 T cs
  unfold UpperCamelCase at h
  unfold CamelCase
  rw [h]
  simp only [Untitle_utf8]

theorem mapRunes_title_inner (T : UnicodeTables) (hL : TitleLaws T) (w : List Char) (p : Char)
    (hp : isSeparator T p = false) (hw : ∀ c ∈ w, isWordRune T c = true) :
    mapRunes (titleStep T) p (w.map T.ToLower) = w.map T.ToLower := by
  induction w generalizing p with
  | nil => rfl
  | cons c w ih =>
    simp only [List.map_cons, mapRunes, titleStep, hp, Bool.false_eq_true, if_false]
    rw [ih (T.ToLower c) (hL c (hw c (List.mem_cons_self _ _)))
      (fun d hd => hw d (List.mem_cons_of_mem _ hd))]

theorem mapRunes_title_word (T : UnicodeTables) (hL : TitleLaws T) (w : List Char)
    (hw : ∀ c ∈ w, isWordRune T c = true) :
    mapRunes (titleStep T) (Char.ofNat 32) (w.map T.ToLower) = titleWord T w := by
  cases w with
  | nil => rfl
  | cons c w =>
    have h32 : isSeparator T (Char.ofNat 32) = true := rfl
    simp only [List.map_cons, mapRunes, titleStep, h32, if_true, titleWord]
    rw [mapRunes_title_inner T hL w (T.ToLower c) (hL c (hw c (List.mem_cons_self _ _)))
      (fun d hd => hw d (List.mem_cons_of_mem _ hd))]

theorem excerptTables_toLower_toNat (c : Char) :
    (excerptTables.ToLower c).toNat =
      if (65 ≤ c.toNat ∧ c.toNat ≤ 90) ∨ (0x410 ≤ c.toNat ∧ c.toNat ≤ 0x42F) then c.toNat + 32
      else if c.toNat = 0x130 then 0x69
      else if 0x1C4 ≤ c.toNat ∧ c.toNat ≤ 0x1C5 then 0x1C6
      else if c.toNat = 0x24B6 then 0x24D0
      else c.toNat := by
  show (if inRange 65 90 c || inRange 0x410 0x42F c then Char.ofNat (c.toNat + 32)
    else if inRange 0x130 0x130 c then Char.ofNat 0x69
    else if inRange 0x1C4 0x1C5 c then Char.ofNat 0x1C6
    else if inRange 0x24B6 0x24B6 c then Char.ofNat 0x24D0
    else c).toNat = _
  simp only [Bool.or_eq_true, inRange_iff]
  by_cases h1 : (65 ≤ c.toNat ∧ c.toNat ≤ 90) ∨ (0x410 ≤ c.toNat ∧ c.toNat ≤ 0x42F)
  · rw [if_pos h1, if_pos h1, toNat_ofNat _ (by omega)]
  · rw [if_neg h1, if_neg h1]
    by_cases h2 : c.toNat = 0x130
    · rw [if_pos (by omega), if_pos h2]; rfl
    · rw [if_neg (by omega), if_neg h2]
      by_cases h3 : 0x1C4 ≤ c.toNat ∧ c.toNat ≤ 0x1C5
      · rw [if_pos h3, if_pos h3]; rfl
      · rw [if_neg h3, if_neg h3]
        by_cases h4 : c.toNat = 0x24B6
        · rw [if_pos (by omega), if_pos h4]; rfl
        · rw [if_neg (by omega), if_neg h4]

theorem excerptTables_titleLaws : TitleLaws excerptTables := by
  intro c hc
  have hl := excerptTables_toLower_toNat c
  generalize excerptTables.ToLower c = x at hl
  simp only [isWordRune, excerptTables, Bool.or_eq_true, inRange_iff] at hc
  unfold isSeparator
  simp only [excerptTables, Bool.or_eq_true, inRange_iff]
  by_cases h1 : (65 ≤ c.toNat ∧ c.toNat ≤ 90) ∨ (0x410 ≤ c.toNat ∧ c.toNat ≤ 0x42F)
  · rw [if_pos h1] at hl
    split_ifs <;>
      first
        | rfl
        | (exfalso; omega)
  · rw [if_neg h1] at hl
    split_ifs at hl ⊢ <;>
      first
        | rfl
        | (exfalso; omega)
        | (simp only [Bool.or_eq_false_iff, inRange_false_iff]; omega)

/-! ## The snake cases on a valid string -/

theorem Join_utf8 (ws : List (List Char)) (sep : List Char) :
    Join (ws.map utf8) (utf8 sep) = utf8 (joinRunes ws sep) := by
  induction ws with
  | nil => rfl
  | cons w ws ih =>
    cases ws with
    | nil => rfl
    | cons v ws =>
      simp only [List.map_cons, Join, joinRunes, utf8_append] at ih ⊢
      rw [ih]

theorem SnakeCase_utf8 (T : UnicodeTables) (cs : List Char) :
    SnakeCase T (utf8 cs) =
      some (utf8 (joinRunes ((splitWords T [] cs).map (List.map T.ToLower)) [Char.ofNat 95])) := by
  rw [SnakeCase, Convert_utf8]
  simp only [ToLower_utf8]
  rw [show ([95] : Bytes) = utf8 [Char.ofNat 95] from rfl, ← Join_utf8, List.map_map]
  rfl

theorem UpperSnakeCase_utf8 (T : UnicodeTables) (cs : List Char) :
    UpperSnakeCase T (utf8 cs) =
      some (utf8 (joinRunes ((splitWords T [] cs).map (List.map T.ToUpper)) [Char.ofNat 95])) := by
  rw [UpperSnakeCase, Convert_utf8]
  simp only [ToUpper_utf8]
  rw [show ([95] : Bytes) = utf8 [Char.ofNat 95] from rfl, ← Join_utf8, List.map_map]
  rfl

/-- A run of letters and numbers without an uppercase letter, at the end of the
string, is closed as one word. -/
theorem splitWords_quiet_end (T : UnicodeTables) (w cur : List Char)
    (hw : ∀ c ∈ w, isWordRune T c = true ∧ T.IsUpper c = false) :
    splitWords T cur w = emit (cur ++ w) := by
  induction w generalizing cur with
  | nil => simp [splitWords]
  | cons c w ih =>
    have hc := hw c (List.mem_cons_self _ _)
    have hw2 : ∀ d ∈ w, isWordRune T d = true ∧ T.IsUpper d = false :=
      fun d hd => hw d (List.mem_cons_of_mem _ hd)
    rw [splitWords, not_sep_iff]
    simp only [hc.1, hc.2, Bool.not_true, Bool.false_eq_true, if_false, Bool.false_and]
    by_cases r3 : (isLowerOrNumber T c && T.IsUpper (nextRune w)) = true
    · rw [if_pos r3]
      cases w with
      | nil => simp [splitWords, emit]
      | cons d w2 =>
        have hd := (hw2 d (List.mem_cons_self _ _)).2
        simp only [nextRune, hd, Bool.and_false, Bool.false_eq_true] at r3
    · rw [if_neg r3, ih (cur ++ [c]) hw2]
      simp

/-- A run of letters and numbers without an uppercase letter, before a
separator codepoint, is closed as one word. -/
theorem splitWords_quiet_sep (T : UnicodeTables) (w cur more : List Char) (s : Char)
    (hs : isWordRune T s = false)
    (hw : ∀ c ∈ w, isWordRune T c = true ∧ T.IsUpper c = false) :
    splitWords T cur (w ++ s :: more) = emit (cur ++ w) ++ splitWords T [] more := by
  have hsep : ∀ cur2 : List Char,
      splitWords T cur2 (s :: more) = emit cur2 ++ splitWords T [] more := by
    intro cur2
    rw [splitWords, not_sep_iff]
    simp only [hs, Bool.not_false, if_true]
  induction w generalizing cur with
  | nil => simp [hsep]
  | cons c w ih =>
    have hc := hw c (List.mem_cons_self _ _)
    have hw2 : ∀ d ∈ w, isWordRune T d = true ∧ T.IsUpper d = false :=
      fun d hd => hw d (List.mem_cons_of_mem _ hd)
    rw [List.cons_append, splitWords, not_sep_iff]
    simp only [hc.1, hc.2, Bool.not_true, Bool.false_eq_true, if_false, Bool.false_and]
    by_cases r3 : (isLowerOrNumber T c && T.IsUpper (nextRune (w ++ s :: more))) = true
    · rw [if_pos r3]
      cases w with
      | nil =>
        rw [List.nil_append, hsep []]
        simp [emit]
      | cons d w2 =>
        have hd := (hw2 d (List.mem_cons_self _ _)).2
        simp only [List.cons_append, nextRune, hd, Bool.and_false, Bool.false_eq_true] at r3
    · rw [if_neg r3, ih (cur ++ [c]) hw2]
      simp

/-- Words without an uppercase letter, joined with a separator codepoint, are
split into the same words again. -/
theorem splitWords_joinRunes (T : UnicodeTables) (ws : List (List Char)) (s : Char)
    (hs : isWordRune T s = false)
    (hws : ∀ w ∈ ws, w ≠ [] ∧ ∀ c ∈ w, isWordRune T c = true ∧ T.IsUpper c = false) :
    splitWords T [] (joinRunes ws [s]) = ws := by
  induction ws with
  | nil => rfl
  | cons w ws ih =>
    have hw := hws w (List.mem_cons_self _ _)
    have hrest : ∀ v ∈ ws, v ≠ [] ∧ ∀ c ∈ v, isWordRune T c = true ∧ T.IsUpper c = false :=
      fun v hv => hws v (List.mem_cons_of_mem _ hv)
    cases ws with
    | nil =>
      rw [joinRunes, splitWords_quiet_end T w [] hw.2, List.nil_append, emit_ne_nil hw.1]
    | cons v ws =>
      rw [joinRunes, List.append_assoc, List.singleton_append,
        splitWords_quiet_sep T w [] _ s hs hw.2, ih hrest, List.nil_append, emit_ne_nil hw.1]
      rfl

theorem mem_splitWords (T : UnicodeTables) (cs w : List Char) (c : Char)
    (hw : w ∈ splitWords T [] cs) (hc : c ∈ w) : c ∈ cs ∧ isWordRune T c = true := by
  have h := splitWords_flatten T cs []
  rw [List.nil_append] at h
  have : c ∈ (splitWords T [] cs).flatten := List.mem_flatten.2 ⟨w, hw, hc⟩
  rw [h] at this
  exact List.mem_filter.1 this

theorem upperSnake_snake (T : UnicodeTables) (hu : isWordRune T (Char.ofNat 95) = false)
    (cs : List Char) (h : CaseStable T cs) :
    (SnakeCase T (utf8 cs)).bind (UpperSnakeCase T) = UpperSnakeCase T (utf8 cs) := by
  rw [SnakeCase_utf8, Option.some_bind, UpperSnakeCase_utf8, UpperSnakeCase_utf8]
  have hq : ∀ w ∈ (splitWords T [] cs).map (List.map T.ToLower),
      w ≠ [] ∧ ∀ c ∈ w, isWordRune T c = true ∧ T.IsUpper c = false := by
    intro w hw
    obtain ⟨v, hv, rfl⟩ := List.mem_map.1 hw
    have hne := (splitWords_mem T cs [] (by simp) v hv).1
    refine ⟨by simpa using hne, fun c hc => ?_⟩
    obtain ⟨d, hd, rfl⟩ := List.mem_map.1 hc
    obtain ⟨hd1, hd2⟩ := mem_splitWords T cs v d hv hd
    exact ⟨(h d hd1 hd2).1, (h d hd1 hd2).2.1⟩
  rw [splitWords_joinRunes T _ _ hu hq, List.map_map]
  congr 3
  apply List.map_congr_left
  intro v hv
  simp only [Function.comp, List.map_map]
  apply List.map_congr_left
  intro d hd
  obtain ⟨hd1, hd2⟩ := mem_splitWords T cs v d hv hd
  exact (h d hd1 hd2).2.2

theorem asciiStd_underscore (T : UnicodeTables) (hA : AsciiStd T) :
    isWordRune T (Char.ofNat 95) = false := by
  unfold isWordRune
  rw [hA.letter _ (by decide), hA.number _ (by decide)]
  rfl

/-- With tables that are standard on ASCII, an ASCII string is stable under the
case mappings. -/
theorem caseStable_of_ascii (T : UnicodeTables) (hA : AsciiStd T) (cs : List Char)
    (h : ∀ c ∈ cs, c.toNat ≤ 0x7F) : CaseStable T cs := by
  intro c hc hw
  have h7 := h c hc
  have hwr : ∀ x : Char, x.toNat ≤ 0x7F → isWordRune T x =
      (inRange 65 90 x || inRange 97 122 x || inRange 48 57 x) := by
    intro x hx
    unfold isWordRune
    rw [hA.letter x hx, hA.number x hx]
    rfl
  have hup : ∀ x : Char, x.toNat ≤ 0x7F → T.IsUpper x = inRange 65 90 x :=
    fun x hx => hA.upper x hx
  have htu : ∀ x : Char, x.toNat ≤ 0x7F →
      T.ToUpper x = if inRange 97 122 x then Char.ofNat (x.toNat - 32) else x :=
    fun x hx => hA.toUpper x hx
  have hl : T.ToLower c = if inRange 65 90 c then Char.ofNat (c.toNat + 32) else c :=
    hA.toLower c h7
  rw [hwr c h7] at hw
  simp only [Bool.or_eq_true, inRange_iff] at hw
  by_cases hu : inRange 65 90 c = true
  · rw [if_pos hu] at hl
    rw [inRange_iff] at hu
    have hn : (Char.ofNat (c.toNat + 32)).toNat = c.toNat + 32 := toNat_ofNat _ (by omega)
    have hl7 : (Char.ofNat (c.toNat + 32)).toNat ≤ 0x7F := by omega
    rw [hl, hwr _ hl7, hup _ hl7, htu _ hl7, htu c h7]
    have e1 : inRange 97 122 (Char.ofNat (c.toNat + 32)) = true := by
      rw [inRange_iff]; omega
    have e2 : inRange 65 90 (Char.ofNat (c.toNat + 32)) = false := by
      rw [inRange_false_iff]; omega
    have e3 : inRange 97 122 c = false := by
      rw [inRange_false_iff]; omega
    rw [e1, e2, e3, hn]
    refine ⟨by simp, rfl, ?_⟩
    simp only [if_true, Bool.false_eq_true, if_false, Nat.add_sub_cancel]
    exact Char.ofNat_toNat c
  · rw [if_neg hu] at hl
    rw [hl, hwr c h7, hup c h7]
    simp only [Bool.not_eq_true] at hu
    refine ⟨?_, hu, rfl⟩
    simp only [Bool.or_eq_true, inRange_iff]
    exact hw

/-! ## Codepoints of the same class -/

theorem sameClass_of_numberToLower (T : UnicodeTables) (hC : CaseLaws T) (c d : Char)
    (h : numberToLower T c d) : sameClass T c d := by
  unfold numberToLower at h
  by_cases hn : T.IsNumber c = true
  · rw [if_pos hn] at h
    have h1 : T.IsLetter d = true := hC.lower_letter d h
    have h2 : T.IsUpper c = false := by
      cases hu : T.IsUpper c with
      | false => rfl
      | true => rw [hC.upper_not_number c hu] at hn; exact absurd hn (by simp)
    have h3 : T.IsUpper d = false := by
      cases hu : T.IsUpper d with
      | false => rfl
      | true => rw [hC.upper_not_lower d hu] at h; exact absurd h (by simp)
    simp [sameClass, isWordRune, isLowerOrNumber, hn, h, h1, h2, h3]
  · rw [if_neg hn] at h
    subst h
    exact ⟨rfl, rfl, rfl⟩

theorem emit_lengths (cur cur2 : List Char) (h : cur.length = cur2.length) :
    (emit cur).map List.length = (emit cur2).map List.length := by
  cases cur with
  | nil =>
    cases cur2 with
    | nil => rfl
    | cons d ds => simp at h
  | cons c cs =>
    cases cur2 with
    | nil => simp at h
    | cons d ds => simp [emit, h]

theorem nextRune_sameClass (T : UnicodeTables) (rest rest2 : List Char)
    (h : List.Forall₂ (sameClass T) rest rest2) :
    T.IsUpper (nextRune rest) = T.IsUpper (nextRune rest2) ∧
      isLowerOrNumber T (nextRune rest) = isLowerOrNumber T (nextRune rest2) := by
  cases h with
  | nil => exact ⟨rfl, rfl⟩
  | cons hcd _ => exact ⟨hcd.2.1, hcd.2.2⟩

theorem splitWords_lengths (T : UnicodeTables) (rest rest2 : List Char)
    (h : List.Forall₂ (sameClass T) rest rest2) (cur cur2 : List Char)
    (hcur : cur.length = cur2.length) :
    (splitWords T cur rest).map List.length = (splitWords T cur2 rest2).map List.length := by
  induction h generalizing cur cur2 with
  | nil => exact emit_lengths cur cur2 hcur
  | @cons c d rest rest2 hcd hrest ih =>
    obtain ⟨hn1, hn2⟩ := nextRune_sameClass T rest rest2 hrest
    obtain ⟨e1, e2, e3⟩ := hcd
    have hsnoc : (cur ++ [c]).length = (cur2 ++ [d]).length := by simp [hcur]
    rw [splitWords, splitWords, not_sep_iff, not_sep_iff, ← e1, ← e2, ← e3, ← hn1, ← hn2]
    split_ifs
    · rw [List.map_append, List.map_append, emit_lengths cur cur2 hcur, ih [] [] rfl]
    · rw [List.map_append, List.map_append, emit_lengths cur cur2 hcur, ih [c] [d] rfl]
    · rw [List.map_append, List.map_append, emit_lengths _ _ hsnoc, ih [] [] rfl]
    · exact ih _ _ hsnoc

/-! ## Slices in range, joins, and separators -/

theorem slice_some {s : Bytes} {lo hi : Nat} {w : Bytes} (h : slice s lo hi = some w) :
    lo ≤ hi ∧ hi ≤ s.length := by
  unfold slice at h
  by_cases hb : lo ≤ hi ∧ hi ≤ s.length
  · exact hb
  · rw [if_neg hb] at h; exact absurd h (by simp)

theorem processNextWord_some {s : Bytes} {cb : Bytes → Bytes} {st st1 : ConvState} {e : Nat}
    (h : processNextWord s cb st e = some st1) : st.prevWordStart ≤ e ∧ e ≤ s.length := by
  unfold processNextWord at h
  cases hs : slice s st.prevWordStart e with
  | none => rw [hs] at h; exact absurd h (by simp)
  | some w => exact slice_some hs

theorem convStep_some {T : UnicodeTables} {s : Bytes} {cb : Bytes → Bytes} {st st1 : ConvState}
    {i : Nat} {ch : Char} (h : convStep T s cb st i ch = some st1) :
    i + RuneLen ch ≤ s.length := by
  unfold convStep at h
  cases hs : slice s (i + RuneLen ch) s.length with
  | none => simp only [hs] at h; exact absurd h (by simp)
  | some w => exact (slice_some hs).1

theorem Join_length (ws : List Bytes) (sep : Bytes) :
    (Join ws sep).length = (ws.map List.length).sum + (ws.length - 1) * sep.length := by
  induction ws with
  | nil => simp [Join]
  | cons w ws ih =>
    cases ws with
    | nil => simp [Join]
    | cons v ws =>
      simp only [Join, List.length_append, ih, List.map_cons, List.sum_cons, List.length_cons]
      simp only [Nat.add_sub_cancel]
      rw [Nat.add_mul]
      omega

theorem Join_short (ws : List Bytes) (sep sep2 : Bytes) (h : ws.length ≤ 1) :
    Join ws sep = Join ws sep2 := by
  cases ws with
  | nil => rfl
  | cons w ws =>
    cases ws with
    | nil => rfl
    | cons v ws => simp at h

theorem lowerOrNumber_of_not_wordRune (T : UnicodeTables) (hC : CaseLaws T) (c : Char)
    (hc : isWordRune T c = false) : isLowerOrNumber T c = false := by
  simp only [isWordRune, Bool.or_eq_false_iff] at hc
  cases hl : T.IsLower c with
  | false => simp [isLowerOrNumber, hl, hc.2]
  | true => rw [hC.lower_letter c hl] at hc; exact absurd hc.1 (by simp)

/-- The scan of a string up to a separator codepoint closes the same words as
the scan of that string alone. -/
theorem splitWords_append_sep (T : UnicodeTables) (hC : CaseLaws T) (hR : RuneErrorStd T)
    (s1 s2 cur : List Char) (c : Char) (hc : isWordRune T c = false) :
    splitWords T cur (s1 ++ c :: s2) = splitWords T cur s1 ++ splitWords T [] s2 := by
  have hsep : ∀ cur2 : List Char,
      splitWords T cur2 (c :: s2) = emit cur2 ++ splitWords T [] s2 := by
    intro cur2
    rw [splitWords, not_sep_iff]
    simp only [hc, Bool.not_false, if_true]
  induction s1 generalizing cur with
  | nil => rw [List.nil_append, hsep]; rfl
  | cons x s1 ih =>
    cases s1 with
    | nil =>
      have hlc := lowerOrNumber_of_not_wordRune T hC c hc
      have hlr : isLowerOrNumber T RuneError = false := by
        simp [isLowerOrNumber, hR.lower, hR.number]
      have hnil : ∀ cur2 : List Char, splitWords T cur2 [] = emit cur2 := by
        intro cur2; rw [splitWords]
      have hL : splitWords T cur (x :: c :: s2) =
          if (!T.IsLetter x && !T.IsNumber x) = true then
            emit cur ++ splitWords T [] (c :: s2)
          else if (T.IsUpper x && isLowerOrNumber T c) = true then
            emit cur ++ splitWords T [x] (c :: s2)
          else if (isLowerOrNumber T x && T.IsUpper c) = true then
            emit (cur ++ [x]) ++ splitWords T [] (c :: s2)
          else splitWords T (cur ++ [x]) (c :: s2) := by
        rw [splitWords]; rfl
      have hRr : splitWords T cur [x] =
          if (!T.IsLetter x && !T.IsNumber x) = true then emit cur ++ splitWords T [] []
          else if (T.IsUpper x && isLowerOrNumber T RuneError) = true then
            emit cur ++ splitWords T [x] []
          else if (isLowerOrNumber T x && T.IsUpper RuneError) = true then
            emit (cur ++ [x]) ++ splitWords T [] []
          else splitWords T (cur ++ [x]) [] := by
        rw [splitWords]; rfl
      rw [List.singleton_append, hL, hRr]
      simp only [hlc, hlr, hR.upper, Bool.and_false, Bool.false_eq_true, if_false, hsep, hnil]
      by_cases c0 : (!T.IsLetter x && !T.IsNumber x) = true
      · simp only [if_pos c0]
        simp [emit]
      · simp only [if_neg c0]
        split_ifs <;> simp [emit]
    | cons y s1 =>
      rw [List.cons_append, splitWords, splitWords]
      simp only [List.cons_append, nextRune]
      split_ifs
      · rw [List.append_assoc, ← ih]; rfl
      · rw [List.append_assoc, ← ih]; rfl
      · rw [List.append_assoc, ← ih]; rfl
      · rw [← ih]; rfl

/-! ## Laws of the lowercase mapping -/

theorem char_eq_of_toNat {a b : Char} (h : a.toNat = b.toNat) : a = b := by
  rw [← Char.ofNat_toNat a, h, Char.ofNat_toNat]

theorem excerptTables_lowerLaws : LowerLaws excerptTables := by
  refine ⟨fun c => ?_, fun c => ?_, fun c hc => ?_⟩
  · apply char_eq_of_toNat
    have h1 := excerptTables_toLower_toNat c
    have h2 := excerptTables_toLower_toNat (excerptTables.ToLower c)
    generalize excerptTables.ToLower c = x at h1 h2 ⊢
    generalize excerptTables.ToLower x = y at h2 ⊢
    split_ifs at h1 h2 <;> omega
  · have h1 := excerptTables_toLower_toNat c
    generalize excerptTables.ToLower c = x at h1 ⊢
    rw [Bool.eq_iff_iff]
    simp only [isLetterOrDigit, excerptTables, Bool.or_eq_true, inRange_iff]
    split_ifs at h1 <;> omega
  · have h1 := excerptTables_toLower_toNat c
    generalize excerptTables.ToLower c = x at h1 ⊢
    simp only [isWordRune, excerptTables, Bool.or_eq_true, inRange_iff] at hc ⊢
    split_ifs at h1 <;> omega

theorem mapRunes_untitle_twice (T : UnicodeTables) (hL : LowerLaws T) (cs : List Char)
    (p q : Char) (hpq : isLetterOrDigit T p = isLetterOrDigit T q) :
    mapRunes (untitleStep T) p (mapRunes (untitleStep T) q cs) =
      mapRunes (untitleStep T) q cs := by
  induction cs generalizing p q with
  | nil => rfl
  | cons c cs ih =>
    simp only [mapRunes, untitleStep_fst, untitleStep_snd, hpq]
    by_cases hq : isLetterOrDigit T q = false
    · rw [if_pos hq, if_pos hq, hL.idem, ih (T.ToLower c) c (hL.letterOrDigit c)]
    · rw [if_neg hq, if_neg hq, ih c c rfl]

/-! ## The shape of the result of `SnakeCase` -/

theorem noDouble_cons (s c : Char) (x : List Char) (hc : c ≠ s) (hx : NoDouble s x) :
    NoDouble s (c :: x) := by
  intro l r h
  cases l with
  | nil =>
    simp only [List.nil_append, List.cons.injEq] at h
    exact hc h.1
  | cons a l =>
    simp only [List.cons_append, List.cons.injEq] at h
    exact hx l r h.2

theorem noDouble_sep (s : Char) (x : List Char) (hh : x.head? ≠ some s) (hx : NoDouble s x) :
    NoDouble s (s :: x) := by
  intro l r h
  cases l with
  | nil =>
    simp only [List.nil_append, List.cons.injEq, true_and] at h
    rw [h] at hh
    exact hh rfl
  | cons a l =>
    simp only [List.cons_append, List.cons.injEq] at h
    exact hx l r h.2

theorem noDouble_append (s : Char) (w x : List Char) (hw : ∀ c ∈ w, c ≠ s)
    (hx : NoDouble s x) : NoDouble s (w ++ x) := by
  induction w with
  | nil => exact hx
  | cons c w ih =>
    exact noDouble_cons s c _ (hw c (List.mem_cons_self _ _))
      (ih (fun d hd => hw d (List.mem_cons_of_mem _ hd)))

theorem joinRunes_head (ws : List (List Char)) (s : Char)
    (hws : ∀ w ∈ ws, w ≠ [] ∧ ∀ c ∈ w, c ≠ s) : (joinRunes ws [s]).head? ≠ some s := by
  cases ws with
  | nil => simp [joinRunes]
  | cons w ws =>
    have hw := hws w (List.mem_cons_self _ _)
    cases w with
    | nil => exact absurd rfl hw.1
    | cons c w =>
      have hc : c ≠ s := hw.2 c (List.mem_cons_self _ _)
      cases ws with
      | nil => simpa [joinRunes] using hc
      | cons v ws => simpa [joinRunes] using hc

theorem joinRunes_ne_nil (w : List Char) (ws : List (List Char)) (sep : List Char)
    (hw : w ≠ []) : joinRunes (w :: ws) sep ≠ [] := by
  cases ws with
  | nil => simpa [joinRunes] using hw
  | cons v ws => simp [joinRunes, hw]

theorem joinRunes_last (ws : List (List Char)) (s : Char)
    (hws : ∀ w ∈ ws, w ≠ [] ∧ ∀ c ∈ w, c ≠ s) : (joinRunes ws [s]).getLast? ≠ some s := by
  induction ws with
  | nil => simp [joinRunes]
  | cons w ws ih =>
    have hw := hws w (List.mem_cons_self _ _)
    have hrest : ∀ v ∈ ws, v ≠ [] ∧ ∀ c ∈ v, c ≠ s :=
      fun v hv => hws v (List.mem_cons_of_mem _ hv)
    cases ws with
    | nil =>
      intro h
      exact hw.2 s (List.mem_of_getLast?_eq_some h) rfl
    | cons v ws =>
      have hv := hrest v (List.mem_cons_self _ _)
      have hne := joinRunes_ne_nil v ws [s] hv.1
      rw [joinRunes, List.getLast?_append_of_ne_nil _ hne]
      exact ih hrest

theorem joinRunes_noDouble (ws : List (List Char)) (s : Char)
    (hws : ∀ w ∈ ws, w ≠ [] ∧ ∀ c ∈ w, c ≠ s) : NoDouble s (joinRunes ws [s]) := by
  induction ws with
  | nil =>
    intro l r h
    simp [joinRunes] at h
  | cons w ws ih =>
    have hw := hws w (List.mem_cons_self _ _)
    have hrest : ∀ v ∈ ws, v ≠ [] ∧ ∀ c ∈ v, c ≠ s :=
      fun v hv => hws v (List.mem_cons_of_mem _ hv)
    cases ws with
    | nil =>
      have h := noDouble_append s w [] hw.2 (by intro l r h; simp at h)
      simpa [joinRunes] using h
    | cons v ws =>
      rw [joinRunes, List.append_assoc, List.singleton_append]
      exact noDouble_append s w _ hw.2
        (noDouble_sep s _ (joinRunes_head _ s hrest) (ih hrest))

theorem mem_joinRunes (ws : List (List Char)) (sep : List Char) (c : Char)
    (h : c ∈ joinRunes ws sep) : c ∈ sep ∨ ∃ w ∈ ws, c ∈ w := by
  induction ws with
  | nil => simp [joinRunes] at h
  | cons w ws ih =>
    cases ws with
    | nil => exact Or.inr ⟨w, List.mem_cons_self _ _, by simpa [joinRunes] using h⟩
    | cons v ws =>
      rw [joinRunes, List.mem_append, List.mem_append] at h
      rcases h with (h | h) | h
      · exact Or.inr ⟨w, List.mem_cons_self _ _, h⟩
      · exact Or.inl h
      · rcases ih h with h2 | ⟨u, hu, hc⟩
        · exact Or.inl h2
        · exact Or.inr ⟨u, List.mem_cons_of_mem _ hu, hc⟩

/-- The words of `SnakeCase`: each is not empty, and each of its codepoints is
the lowercase form of a letter or number of the string. -/
theorem snake_words (T : UnicodeTables) (cs : List Char) :
    ∀ w ∈ (splitWords T [] cs).map (List.map T.ToLower),
      w ≠ [] ∧ ∀ c ∈ w, ∃ d ∈ cs, isWordRune T d = true ∧ c = T.ToLower d := by
  intro w hw
  obtain ⟨v, hv, rfl⟩ := List.mem_map.1 hw
  have hne := (splitWords_mem T cs [] (by simp) v hv).1
  refine ⟨by simpa using hne, fun c hc => ?_⟩
  obtain ⟨d, hd, rfl⟩ := List.mem_map.1 hc
  obtain ⟨hd1, hd2⟩ := mem_splitWords T cs v d hv hd
  exact ⟨d, hd1, hd2, rfl⟩

theorem snake_snake (T : UnicodeTables) (hu : isWordRune T (Char.ofNat 95) = false)
    (hL : LowerLaws T) (cs : List Char)
    (h : ∀ c ∈ cs, isWordRune T c = true → T.IsUpper (T.ToLower c) = false) :
    ∃ r, SnakeCase T (utf8 cs) = some r ∧ SnakeCase T r = some r := by
  refine ⟨_, SnakeCase_utf8 T cs, ?_⟩
  have hq : ∀ w ∈ (splitWords T [] cs).map (List.map T.ToLower),
      w ≠ [] ∧ ∀ c ∈ w, isWordRune T c = true ∧ T.IsUpper c = false := by
    intro w hw
    refine ⟨(snake_words T cs w hw).1, fun c hc => ?_⟩
    obtain ⟨d, hd1, hd2, rfl⟩ := (snake_words T cs w hw).2 c hc
    exact ⟨hL.wordRune d hd2, h d hd1 hd2⟩
  rw [SnakeCase_utf8, splitWords_joinRunes T _ _ hu hq, List.map_map]
  congr 3
  apply List.map_congr_left
  intro v _
  simp only [Function.comp, List.map_map]
  apply List.map_congr_left
  intro d _
  exact hL.idem d

/-! ## The words of the result of `CamelCase` -/

theorem isQuiet_iff (T : UnicodeTables) (c : Char) :
    isQuiet T c = true ↔
      isWordRune T c = true ∧ T.IsUpper c = false ∧ isLowerOrNumber T c = true := by
  unfold isQuiet
  cases isWordRune T c <;> cases T.IsUpper c <;> cases isLowerOrNumber T c <;> decide

theorem isCapital_iff (T : UnicodeTables) (c : Char) :
    isCapital T c = true ↔
      isWordRune T c = true ∧ T.IsUpper c = true ∧ isLowerOrNumber T c = false := by
  unfold isCapital
  cases isWordRune T c <;> cases T.IsUpper c <;> cases isLowerOrNumber T c <;> decide

/-- One step of the scan at a letter or number. -/
theorem splitWords_word_step (T : UnicodeTables) (cur rest : List Char) (ch : Char)
    (h : isWordRune T ch = true) :
    splitWords T cur (ch :: rest) =
      if (T.IsUpper ch && isLowerOrNumber T (nextRune rest)) = true then
        emit cur ++ splitWords T [ch] rest
      else if (isLowerOrNumber T ch && T.IsUpper (nextRune rest)) = true then
        emit (cur ++ [ch]) ++ splitWords T [] rest
      else splitWords T (cur ++ [ch]) rest := by
  rw [splitWords, not_sep_iff]
  simp only [h, Bool.not_true, Bool.false_eq_true, if_false]

/-- A run of quiet codepoints that a capital follows is closed as a word. -/
theorem splitWords_quiet_capital (T : UnicodeTables) (w cur more : List Char) (u : Char)
    (hu : isCapital T u = true) (hne : w ≠ []) (hw : ∀ c ∈ w, isQuiet T c = true) :
    splitWords T cur (w ++ u :: more) = emit (cur ++ w) ++ splitWords T [] (u :: more) := by
  have hU := (isCapital_iff T u).1 hu
  induction w generalizing cur with
  | nil => exact absurd rfl hne
  | cons c w ih =>
    have hc := (isQuiet_iff T c).1 (hw c (List.mem_cons_self _ _))
    rw [List.cons_append, splitWords_word_step T _ _ _ hc.1]
    simp only [hc.2.1, Bool.false_and, Bool.false_eq_true, if_false, hc.2.2, Bool.true_and]
    cases w with
    | nil =>
      simp only [List.nil_append, nextRune, hU.2.1, if_true]
    | cons d w =>
      have hd := (isQuiet_iff T d).1 (hw d (List.mem_cons_of_mem _ (List.mem_cons_self _ _)))
      simp only [List.cons_append, nextRune, hd.2.1, Bool.false_eq_true, if_false]
      rw [← List.cons_append, ih (cur ++ [c]) (by simp)
        (fun x hx => hw x (List.mem_cons_of_mem _ hx))]
      simp

/-- A capital that a quiet codepoint follows opens a word. -/
theorem splitWords_capital_quiet (T : UnicodeTables) (cur rest : List Char) (u d : Char)
    (hu : isCapital T u = true) (hd : isQuiet T d = true) :
    splitWords T cur (u :: d :: rest) = emit cur ++ splitWords T [u] (d :: rest) := by
  have hU := (isCapital_iff T u).1 hu
  have hD := (isQuiet_iff T d).1 hd
  rw [splitWords_word_step T _ _ _ hU.1]
  simp only [nextRune, hU.2.1, hD.2.2, Bool.and_self, if_true]

/-- A capital that a capital follows stays in the open span. -/
theorem splitWords_capital_capital (T : UnicodeTables) (cur rest : List Char) (u v : Char)
    (hu : isCapital T u = true) (hv : isCapital T v = true) :
    splitWords T cur (u :: v :: rest) = splitWords T (cur ++ [u]) (v :: rest) := by
  have hU := (isCapital_iff T u).1 hu
  have hV := (isCapital_iff T v).1 hv
  rw [splitWords_word_step T _ _ _ hU.1]
  simp only [nextRune, hU.2.2, hV.2.2, Bool.and_false, Bool.false_and, Bool.false_eq_true,
    if_false]

/-- A capital at the end of the string, when no span is open, is a word. -/
theorem splitWords_capital_end (T : UnicodeTables) (u : Char) (hu : isCapital T u = true) :
    splitWords T [] [u] = [[u]] := by
  have hU := (isCapital_iff T u).1 hu
  rw [splitWords_word_step T _ _ _ hU.1]
  simp only [hU.2.2, Bool.false_and, Bool.false_eq_true, if_false]
  split_ifs <;> simp [splitWords, emit]

theorem quiet_weaken (T : UnicodeTables) (r : List Char) (hr : ∀ c ∈ r, isQuiet T c = true) :
    ∀ c ∈ r, isWordRune T c = true ∧ T.IsUpper c = false :=
  fun c hc => ⟨((isQuiet_iff T c).1 (hr c hc)).1, ((isQuiet_iff T c).1 (hr c hc)).2.1⟩

/-- Capitalised words, no two adjacent ones of one codepoint, written one after
the other, are split into the same words again; also when a capital is the
open span and the first word has two codepoints or more. -/
theorem splitWords_capWords (T : UnicodeTables) (vs : List (List Char))
    (hv : ∀ v ∈ vs, isCapWord T v = true) (hadj : noAdjacentSingles vs = true) :
    splitWords T [] vs.flatten = vs ∧
    (∀ u : Char, isCapital T u = true → (∀ v, vs.head? = some v → 2 ≤ v.length) →
      splitWords T [u] vs.flatten = [u] :: vs) := by
  induction vs with
  | nil =>
    refine ⟨rfl, fun u _ _ => rfl⟩
  | cons v vs ih =>
    have hrest : ∀ x ∈ vs, isCapWord T x = true := fun x hx => hv x (List.mem_cons_of_mem _ hx)
    have hvc := hv v (List.mem_cons_self _ _)
    have hadj2 : noAdjacentSingles vs = true := by
      cases vs with
      | nil => rfl
      | cons v2 vs =>
        simp only [noAdjacentSingles, Bool.and_eq_true] at hadj
        exact hadj.2
    obtain ⟨ih1, ih2⟩ := ih hrest hadj2
    cases v with
    | nil => simp [isCapWord] at hvc
    | cons u1 r =>
      simp only [isCapWord, Bool.and_eq_true, List.all_eq_true] at hvc
      obtain ⟨hu1, hr⟩ := hvc
      cases r with
      | nil =>
        -- a word of one codepoint
        refine ⟨?_, fun u _ h2 => ?_⟩
        · cases vs with
          | nil => simpa using splitWords_capital_end T u1 hu1
          | cons v2 vs =>
            have hv2 := hrest v2 (List.mem_cons_self _ _)
            cases v2 with
            | nil => simp [isCapWord] at hv2
            | cons u2 r2 =>
              have hu2 : isCapital T u2 = true := by
                simp only [isCapWord, Bool.and_eq_true] at hv2
                exact hv2.1
              have hlen : 2 ≤ (u2 :: r2).length := by
                simp only [noAdjacentSingles, Bool.and_eq_true, Bool.not_eq_true',
                  Bool.and_eq_false_iff, beq_eq_false_iff_ne, List.length_cons,
                  List.length_nil] at hadj
                rcases hadj.1 with h | h
                · exact absurd rfl h
                · simp only [List.length_cons]
                  omega
              have e := ih2 u1 hu1 (fun x hx => by
                simp only [List.head?_cons, Option.some.injEq] at hx
                rw [← hx]; exact hlen)
              simp only [List.flatten_cons, List.cons_append, List.nil_append] at e ⊢
              rw [splitWords_capital_capital T [] _ u1 u2 hu1 hu2]
              exact e
        · have := h2 [u1] rfl
          simp at this
      | cons d r =>
        -- a word of two codepoints or more
        have hd : isQuiet T d = true := hr d (List.mem_cons_self _ _)
        have key : ∀ cur : List Char,
            splitWords T cur (List.flatten ((u1 :: d :: r) :: vs)) =
              emit cur ++ (u1 :: d :: r) :: vs := by
          intro cur
          simp only [List.flatten_cons, List.cons_append]
          rw [splitWords_capital_quiet T cur _ u1 d hu1 hd]
          cases vs with
          | nil =>
            simp only [List.flatten_nil, List.append_nil]
            rw [splitWords_quiet_end T (d :: r) [u1] (quiet_weaken T _ hr)]
            rfl
          | cons v2 vs =>
            have hv2 := hrest v2 (List.mem_cons_self _ _)
            cases v2 with
            | nil => simp [isCapWord] at hv2
            | cons u2 r2 =>
              have hu2 : isCapital T u2 = true := by
                simp only [isCapWord, Bool.and_eq_true] at hv2
                exact hv2.1
              simp only [List.flatten_cons, List.cons_append] at ih1 ⊢
              rw [← List.cons_append,
                splitWords_quiet_capital T (d :: r) [u1] _ u2 hu2 (by simp) hr, ih1]
              rfl
        exact ⟨key [], fun u _ _ => key [u]⟩

/-- A quiet word, then capitalised words, no two adjacent ones of one
codepoint: the string is split into these words. -/
theorem splitWords_camel (T : UnicodeTables) (q : List Char) (vs : List (List Char))
    (hne : q ≠ []) (hq : ∀ c ∈ q, isQuiet T c = true)
    (hv : ∀ v ∈ vs, isCapWord T v = true) (hadj : noAdjacentSingles vs = true) :
    splitWords T [] (q ++ vs.flatten) = q :: vs := by
  cases vs with
  | nil =>
    rw [List.flatten_nil, List.append_nil, splitWords_quiet_end T q [] (quiet_weaken T _ hq),
      List.nil_append, emit_ne_nil hne]
  | cons v vs =>
    have h1 := (splitWords_capWords T (v :: vs) hv hadj).1
    have hvc := hv v (List.mem_cons_self _ _)
    cases v with
    | nil => simp [isCapWord] at hvc
    | cons u r =>
      have hu : isCapital T u = true := by
        simp only [isCapWord, Bool.and_eq_true] at hvc
        exact hvc.1
      simp only [List.flatten_cons, List.cons_append] at h1 ⊢
      rw [splitWords_quiet_capital T q [] _ u hu hne hq, h1, List.nil_append, emit_ne_nil hne]
      rfl

theorem mapRunes_title_inner_of (T : UnicodeTables) (w : List Char) (p : Char)
    (hp : isSeparator T p = false) (hw : ∀ c ∈ w, isSeparator T (T.ToLower c) = false) :
    mapRunes (titleStep T) p (w.map T.ToLower) = w.map T.ToLower := by
  induction w generalizing p with
  | nil => rfl
  | cons c w ih =>
    simp only [List.map_cons, mapRunes, titleStep, hp, Bool.false_eq_true, if_false]
    rw [ih (T.ToLower c) (hw c (List.mem_cons_self _ _))
      (fun d hd => hw d (List.mem_cons_of_mem _ hd))]

theorem mapRunes_title_word_of (T : UnicodeTables) (w : List Char)
    (hw : ∀ c ∈ w, isSeparator T (T.ToLower c) = false) :
    mapRunes (titleStep T) (Char.ofNat 32) (w.map T.ToLower) = titleWord T w := by
  cases w with
  | nil => rfl
  | cons c w =>
    have h32 : isSeparator T (Char.ofNat 32) = true := rfl
    simp only [List.map_cons, mapRunes, titleStep, h32, if_true, titleWord]
    rw [mapRunes_title_inner_of T w (T.ToLower c) (hw c (List.mem_cons_self _ _))
      (fun d hd => hw d (List.mem_cons_of_mem _ hd))]

theorem mapRunes_untitle_keep (T : UnicodeTables) (xs : List Char) (p : Char)
    (hp : isLetterOrDigit T p = true) (hx : ∀ x ∈ xs, isLetterOrDigit T x = true) :
    mapRunes (untitleStep T) p xs = xs := by
  induction xs generalizing p with
  | nil => rfl
  | cons x xs ih =>
    simp only [mapRunes, untitleStep_fst, untitleStep_snd, hp, Bool.true_eq_false, if_false]
    rw [ih x (hx x (List.mem_cons_self _ _)) (fun y hy => hx y (List.mem_cons_of_mem _ hy))]

theorem asciiStd_zero (T : UnicodeTables) (hA : AsciiStd T) :
    isLetterOrDigit T (Char.ofNat 0) = false := by
  unfold isLetterOrDigit
  rw [hA.letter _ (by decide), hA.digit _ (by decide)]
  rfl

/-- What `CamelStable` says of the words of the string. -/
theorem camelStable_words (T : UnicodeTables) (cs : List Char) (h : CamelStable T cs)
    (w : List Char) (hw : w ∈ splitWords T [] cs) (c : Char) (hc : c ∈ w) :
    isQuiet T (T.ToLower c) = true ∧ isLetterOrDigit T (T.ToLower c) = true ∧
    isSeparator T (T.ToLower c) = false ∧ T.ToLower (T.ToLower c) = T.ToLower c ∧
    isLetterOrDigit T (T.ToTitle (T.ToLower c)) = true ∧
    T.ToLower (T.ToTitle (T.ToLower c)) = T.ToLower c := by
  obtain ⟨h1, h2⟩ := mem_splitWords T cs w c hw hc
  exact h c h1 h2

theorem lod_titleWord (T : UnicodeTables) (w : List Char)
    (hw : ∀ c ∈ w, isLetterOrDigit T (T.ToLower c) = true ∧
      isLetterOrDigit T (T.ToTitle (T.ToLower c)) = true) :
    ∀ x ∈ titleWord T w, isLetterOrDigit T x = true := by
  cases w with
  | nil => intro x hx; simp [titleWord] at hx
  | cons c w =>
    intro x hx
    simp only [titleWord, List.mem_cons, List.mem_map] at hx
    rcases hx with rfl | ⟨d, hd, rfl⟩
    · exact (hw c (List.mem_cons_self _ _)).2
    · exact (hw d (List.mem_cons_of_mem _ hd)).1

/-- On a string that keeps its words under the camel case, `CamelCase` returns
the first word in lower case, then the other words in title case. -/
theorem CamelCase_camelRunes (T : UnicodeTables) (hz : isLetterOrDigit T (Char.ofNat 0) = false)
    (cs : List Char) (h : CamelStable T cs) :
    CamelCase T (utf8 cs) = some (utf8 (camelRunes T (splitWords T [] cs))) := by
  rw [CamelCase_utf8]
  have hst := camelStable_words T cs h
  have hne : ∀ w ∈ splitWords T [] cs, w ≠ [] :=
    fun w hw => (splitWords_mem T cs [] (by simp) w hw).1
  generalize splitWords T [] cs = ws at hst hne
  have e : ws.map (fun w => mapRunes (titleStep T) (Char.ofNat 32) (w.map T.ToLower)) =
      ws.map (titleWord T) := by
    apply List.map_congr_left
    intro w hw
    exact mapRunes_title_word_of T w (fun c hc => (hst w hw c hc).2.2.1)
  rw [e]
  cases ws with
  | nil => rfl
  | cons w ws =>
    have hlod : ∀ x ∈ ((w :: ws).map (titleWord T)).flatten, isLetterOrDigit T x = true := by
      intro x hx
      obtain ⟨t, ht, hxt⟩ := List.mem_flatten.1 hx
      obtain ⟨v, hv, rfl⟩ := List.mem_map.1 ht
      exact lod_titleWord T v (fun c hc => ⟨(hst v hv c hc).2.1, (hst v hv c hc).2.2.2.2.1⟩) x hxt
    cases w with
    | nil => exact absurd rfl (hne [] (List.mem_cons_self _ _))
    | cons c w =>
      have hc := hst (c :: w) (List.mem_cons_self _ _) c (List.mem_cons_self _ _)
      simp only [List.map_cons, List.flatten_cons, titleWord, List.cons_append] at hlod ⊢
      simp only [mapRunes, untitleStep_fst, untitleStep_snd, hz, if_true, camelRunes,
        List.map_cons, List.cons_append, hc.2.2.2.2.2]
      rw [mapRunes_untitle_keep T _ _ (hlod _ (List.mem_cons_self _ _))
        (fun y hy => hlod y (List.mem_cons_of_mem _ hy))]

theorem isCapWord_titleWord (T : UnicodeTables) (v : List Char)
    (hs : startsWith (fun c => isCapital T (T.ToTitle (T.ToLower c))) v = true)
    (hq : ∀ c ∈ v, isQuiet T (T.ToLower c) = true) : isCapWord T (titleWord T v) = true := by
  cases v with
  | nil => simp [startsWith] at hs
  | cons c r =>
    simp only [startsWith] at hs
    simp only [titleWord, isCapWord, hs, Bool.true_and, List.all_eq_true, List.mem_map]
    rintro x ⟨d, hd, rfl⟩
    exact hq d (List.mem_cons_of_mem _ hd)

theorem titleWord_length (T : UnicodeTables) (v : List Char) :
    (titleWord T v).length = v.length := by
  cases v <;> simp [titleWord]

theorem noAdjacentSingles_map (T : UnicodeTables) (vs : List (List Char)) :
    noAdjacentSingles (vs.map (titleWord T)) = noAdjacentSingles vs := by
  induction vs with
  | nil => rfl
  | cons v vs ih =>
    cases vs with
    | nil => rfl
    | cons v2 vs =>
      simp only [List.map_cons, noAdjacentSingles, titleWord_length] at ih ⊢
      rw [ih]

/-- The words that `Convert` finds in the result of `CamelCase`. -/
theorem splitWords_camelRunes (T : UnicodeTables) (cs : List Char) (h : CamelStable T cs)
    (hS : CamelShape T (splitWords T [] cs)) :
    splitWords T [] (camelRunes T (splitWords T [] cs)) =
      match splitWords T [] cs with
      | [] => []
      | w :: ws => w.map T.ToLower :: ws.map (titleWord T) := by
  have hst := camelStable_words T cs h
  have hne : ∀ w ∈ splitWords T [] cs, w ≠ [] :=
    fun w hw => (splitWords_mem T cs [] (by simp) w hw).1
  generalize splitWords T [] cs = ws at hst hne hS
  cases ws with
  | nil => rfl
  | cons w ws =>
    obtain ⟨hS1, hS2⟩ := hS
    simp only [List.tail_cons] at hS1 hS2
    simp only [camelRunes]
    apply splitWords_camel T
    · simpa using hne w (List.mem_cons_self _ _)
    · intro x hx
      obtain ⟨d, hd, rfl⟩ := List.mem_map.1 hx
      exact (hst w (List.mem_cons_self _ _) d hd).1
    · intro t ht
      obtain ⟨v, hv, rfl⟩ := List.mem_map.1 ht
      exact isCapWord_titleWord T v (hS1 v hv)
        (fun c hc => (hst v (List.mem_cons_of_mem _ hv) c hc).1)
    · rw [noAdjacentSingles_map]; exact hS2

theorem map_lower_titleWord (T : UnicodeTables) (v : List Char)
    (hv : ∀ c ∈ v, T.ToLower (T.ToLower c) = T.ToLower c ∧
      T.ToLower (T.ToTitle (T.ToLower c)) = T.ToLower c) :
    (titleWord T v).map T.ToLower = v.map T.ToLower := by
  cases v with
  | nil => rfl
  | cons c r =>
    simp only [titleWord, List.map_cons, List.map_map, (hv c (List.mem_cons_self _ _)).2]
    congr 1
    apply List.map_congr_left
    intro d hd
    exact (hv d (List.mem_cons_of_mem _ hd)).1

theorem map_lower_lower (T : UnicodeTables) (v : List Char)
    (hv : ∀ c ∈ v, T.ToLower (T.ToLower c) = T.ToLower c) :
    (v.map T.ToLower).map T.ToLower = v.map T.ToLower := by
  rw [List.map_map]
  apply List.map_congr_left
  intro d hd
  exact hv d hd

/-- `SnakeCase` of the result of `CamelCase`. -/
theorem snake_camel (T : UnicodeTables) (hz : isLetterOrDigit T (Char.ofNat 0) = false)
    (cs : List Char) (h : CamelStable T cs) (hS : CamelShape T (splitWords T [] cs)) :
    ∃ r, CamelCase T (utf8 cs) = some r ∧ SnakeCase T r = SnakeCase T (utf8 cs) := by
  refine ⟨_, CamelCase_camelRunes T hz cs h, ?_⟩
  rw [SnakeCase_utf8, SnakeCase_utf8, splitWords_camelRunes T cs h hS]
  have hst := camelStable_words T cs h
  generalize splitWords T [] cs = ws at hst
  cases ws with
  | nil => rfl
  | cons w ws =>
    simp only [List.map_cons]
    rw [map_lower_lower T w (fun c hc => (hst w (List.mem_cons_self _ _) c hc).2.2.2.1)]
    have e : (ws.map (titleWord T)).map (List.map T.ToLower) = ws.map (List.map T.ToLower) := by
      rw [List.map_map]
      apply List.map_congr_left
      intro v hv
      exact map_lower_titleWord T v (fun c hc =>
        ⟨(hst v (List.mem_cons_of_mem _ hv) c hc).2.2.2.1,
          (hst v (List.mem_cons_of_mem _ hv) c hc).2.2.2.2.2⟩)
    rw [e]

set_option maxRecDepth 100000 in
/-- The facts of `CamelStable` and of `CamelShape`, checked on each ASCII
codepoint. -/
theorem ascii_camel_check (T : UnicodeTables) :
    (List.range 128).all (fun n =>
      (!isWordRune (asciiOn T) (Char.ofNat n) ||
        (isQuiet (asciiOn T) ((asciiOn T).ToLower (Char.ofNat n)) &&
          isLetterOrDigit (asciiOn T) ((asciiOn T).ToLower (Char.ofNat n)) &&
          !isSeparator (asciiOn T) ((asciiOn T).ToLower (Char.ofNat n)) &&
          ((asciiOn T).ToLower ((asciiOn T).ToLower (Char.ofNat n)) ==
            (asciiOn T).ToLower (Char.ofNat n)) &&
          isLetterOrDigit (asciiOn T) ((asciiOn T).ToTitle ((asciiOn T).ToLower (Char.ofNat n))) &&
          ((asciiOn T).ToLower ((asciiOn T).ToTitle ((asciiOn T).ToLower (Char.ofNat n))) ==
            (asciiOn T).ToLower (Char.ofNat n)))) &&
      (!(asciiOn T).IsLetter (Char.ofNat n) ||
        isCapital (asciiOn T) ((asciiOn T).ToTitle ((asciiOn T).ToLower (Char.ofNat n))))) =
      true := by
  rfl

theorem ascii_camel_facts (T : UnicodeTables) (hA : AsciiStd T) (c : Char)
    (h7 : c.toNat ≤ 0x7F) :
    (isWordRune T c = true →
      isQuiet T (T.ToLower c) = true ∧ isLetterOrDigit T (T.ToLower c) = true ∧
      isSeparator T (T.ToLower c) = false ∧ T.ToLower (T.ToLower c) = T.ToLower c ∧
      isLetterOrDigit T (T.ToTitle (T.ToLower c)) = true ∧
      T.ToLower (T.ToTitle (T.ToLower c)) = T.ToLower c) ∧
    (T.IsLetter c = true → isCapital T (T.ToTitle (T.ToLower c)) = true) := by
  have h := ascii_camel_check T
  rw [asciiOn_eq T hA, List.all_eq_true] at h
  have hc := h c.toNat (List.mem_range.2 (by omega))
  rw [Char.ofNat_toNat] at hc
  simp only [Bool.and_eq_true, Bool.or_eq_true, Bool.not_eq_true', beq_iff_eq] at hc
  obtain ⟨h1, h2⟩ := hc
  constructor
  · intro hw
    rcases h1 with h1 | h1
    · rw [hw] at h1; exact absurd h1 (by decide)
    · obtain ⟨⟨⟨⟨⟨a1, a2⟩, a3⟩, a4⟩, a5⟩, a6⟩ := h1
      exact ⟨a1, a2, a3, a4, a5, a6⟩
  · intro hl
    rcases h2 with h2 | h2
    · rw [hl] at h2; exact absurd h2 (by decide)
    · exact h2

theorem camelStable_of_ascii (T : UnicodeTables) (hA : AsciiStd T) (cs : List Char)
    (h : ∀ c ∈ cs, c.toNat ≤ 0x7F) : CamelStable T cs :=
  fun c hc hw => (ascii_camel_facts T hA c (h c hc)).1 hw

theorem startsWith_of_ascii (T : UnicodeTables) (hA : AsciiStd T) (v : List Char)
    (h7 : ∀ c ∈ v, c.toNat ≤ 0x7F) (h : startsWith T.IsLetter v = true) :
    startsWith (fun c => isCapital T (T.ToTitle (T.ToLower c))) v = true := by
  cases v with
  | nil => simp [startsWith] at h
  | cons c r =>
    simp only [startsWith] at h ⊢
    exact (ascii_camel_facts T hA c (h7 c (List.mem_cons_self _ _))).2 h

theorem camelShape_of_ascii (T : UnicodeTables) (hA : AsciiStd T) (cs : List Char)
    (h7 : ∀ c ∈ cs, c.toNat ≤ 0x7F)
    (h1 : ∀ v ∈ (splitWords T [] cs).tail, startsWith T.IsLetter v = true)
    (h2 : noAdjacentSingles (splitWords T [] cs).tail = true) :
    CamelShape T (splitWords T [] cs) := by
  refine ⟨fun v hv => startsWith_of_ascii T hA v (fun c hc => ?_) (h1 v hv), h2⟩
  exact h7 c (mem_splitWords T cs v c (List.mem_of_mem_tail hv) hc).1

/-- The words of a valid string, as lists of codepoints, are those of the
tokenizer on codepoints. -/
theorem words_eq_splitWords (T : UnicodeTables) (cs : List Char) (ws : List (List Char))
    (h : convWords T (utf8 cs) id = some (ws.map utf8)) : ws = splitWords T [] cs := by
  rw [convWords_utf8] at h
  have h2 : (splitWords T [] cs).map utf8 = ws.map utf8 := Option.some.inj h
  exact (List.map_injective_iff.2 utf8_injective h2).symm

/-! ## The strings that `CamelCase` returns unchanged -/

theorem title_emit (T : UnicodeTables) (cur : List Char) (ws : List (List Char)) :
    ((emit cur ++ ws).map (titleWord T)).flatten =
      titleWord T cur ++ (ws.map (titleWord T)).flatten := by
  cases cur with
  | nil => rfl
  | cons c cur => simp [emit]

/-- The title case of the open span with the next letter or number. -/
theorem titleWord_snoc (T : UnicodeTables) (cur rest : List Char) (prev : Option Char)
    (ch : Char)
    (ha : cur = [] → prev = none ∨ ∃ p, prev = some p ∧ isLowerOrNumber T p = true ∧
      T.IsUpper (nextRune (ch :: rest)) = true)
    (hb : cur ≠ [] → ∃ p, prev = some p ∧
      ¬(isLowerOrNumber T p = true ∧ T.IsUpper (nextRune (ch :: rest)) = true))
    (r2 : ¬(T.IsUpper ch && isLowerOrNumber T (nextRune rest)) = true) :
    titleWord T (cur ++ [ch]) = titleWord T cur ++
      [if beginsWord T prev ch (nextRune rest) then T.ToTitle (T.ToLower ch)
        else T.ToLower ch] := by
  cases cur with
  | nil =>
    have hbw : beginsWord T prev ch (nextRune rest) = true := by
      rcases ha rfl with h | ⟨p, hp, h1, h2⟩
      · rw [h]; rfl
      · rw [hp]
        simp only [nextRune] at h2
        simp [beginsWord, h1, h2]
    simp [titleWord, hbw]
  | cons c cur =>
    obtain ⟨p, hp, h⟩ := hb (by simp)
    have hbw : beginsWord T prev ch (nextRune rest) = false := by
      rw [hp]
      simp only [nextRune] at h
      simp only [Bool.not_eq_true] at r2
      simp only [beginsWord, r2, Bool.or_false]
      cases h1 : isLowerOrNumber T p <;> cases h2 : T.IsUpper ch <;> simp_all
    simp [titleWord, hbw]

/-- The words that `Convert` finds in a string of letters and numbers, in title
case and written one after the other, are `titleRunes` of the string. -/
theorem title_splitWords (T : UnicodeTables) (ys cur : List Char) (prev : Option Char)
    (hw : ∀ y ∈ ys, isWordRune T y = true ∧
      (T.IsUpper y = true → isLowerOrNumber T y = false))
    (ha : cur = [] → prev = none ∨ ∃ p, prev = some p ∧ isLowerOrNumber T p = true ∧
      T.IsUpper (nextRune ys) = true)
    (hb : cur ≠ [] → ∃ p, prev = some p ∧
      ¬(isLowerOrNumber T p = true ∧ T.IsUpper (nextRune ys) = true)) :
    ((splitWords T cur ys).map (titleWord T)).flatten =
      titleWord T cur ++ titleRunes T prev ys := by
  induction ys generalizing cur prev with
  | nil =>
    have h := title_emit T cur []
    simp only [List.append_nil, List.map_nil, List.flatten_nil] at h
    simp only [splitWords, titleRunes, List.append_nil]
    exact h
  | cons ch rest ih =>
    have hch := hw ch (List.mem_cons_self _ _)
    have hrest : ∀ y ∈ rest, isWordRune T y = true ∧
        (T.IsUpper y = true → isLowerOrNumber T y = false) :=
      fun y hy => hw y (List.mem_cons_of_mem _ hy)
    rw [splitWords_word_step T cur rest ch hch.1]
    by_cases r2 : (T.IsUpper ch && isLowerOrNumber T (nextRune rest)) = true
    · rw [if_pos r2, title_emit]
      have hu : T.IsUpper ch = true := by
        simp only [Bool.and_eq_true] at r2; exact r2.1
      rw [ih [ch] (some ch) hrest (fun h => by simp at h)
        (fun _ => ⟨ch, rfl, fun h => by rw [hch.2 hu] at h; exact Bool.false_ne_true h.1⟩)]
      have hbw : beginsWord T prev ch (nextRune rest) = true := by
        cases prev with
        | none => rfl
        | some p => simp only [beginsWord, r2, Bool.or_true]
      simp only [titleRunes, hbw, if_true, titleWord, List.map_nil]
      rfl
    · rw [if_neg r2]
      have hsn := titleWord_snoc T cur rest prev ch ha hb r2
      by_cases r3 : (isLowerOrNumber T ch && T.IsUpper (nextRune rest)) = true
      · rw [if_pos r3, title_emit, hsn]
        simp only [Bool.and_eq_true] at r3
        rw [ih [] (some ch) hrest (fun _ => Or.inr ⟨ch, rfl, r3.1, r3.2⟩)
          (fun h => absurd rfl h)]
        simp [titleRunes, titleWord]
      · rw [if_neg r3]
        rw [ih (cur ++ [ch]) (some ch) hrest (fun h => by simp at h)
          (fun _ => ⟨ch, rfl, fun h => r3 (by simp [h.1, h.2])⟩), hsn]
        simp [titleRunes]

theorem camelLetter_classes (T : UnicodeTables) (y : Char) (h : CamelLetter T y) :
    isWordRune T y = true ∧ (T.IsUpper y = true → isLowerOrNumber T y = false) := by
  obtain ⟨h1, h2⟩ := h
  refine ⟨h1, fun hu => ?_⟩
  rcases h2 with ⟨h3, _⟩ | ⟨_, h3, _⟩
  · rw [h3] at hu; exact absurd hu (by decide)
  · exact h3

/-- A string of camel letters after the codepoint `p` is its own title case
exactly when it has no lone capital. -/
theorem titleRunes_fixed_iff (T : UnicodeTables) (ys : List Char) (p : Char)
    (hy : ∀ y ∈ ys, CamelLetter T y) :
    titleRunes T (some p) ys = ys ↔ loneCapital T (p :: ys) = false := by
  induction ys generalizing p with
  | nil => simp [titleRunes, loneCapital]
  | cons ch rest ih =>
    have hch := hy ch (List.mem_cons_self _ _)
    have ih2 := ih ch (fun y hy2 => hy y (List.mem_cons_of_mem _ hy2))
    simp only [titleRunes, loneCapital, List.cons.injEq, Bool.or_eq_false_iff, ih2]
    apply and_congr_left
    intro _
    rcases hch.2 with ⟨h2, hl⟩ | ⟨h2, _, ht, hl⟩
    · simp [beginsWord, h2, hl]
    · simp only [beginsWord, h2, Bool.and_true, Bool.true_and]
      cases h3 : isLowerOrNumber T p
      · cases h4 : isLowerOrNumber T (nextRune rest)
        · simp [hl]
        · simp [ht]
      · simp [ht]

theorem mem_titleRunes (T : UnicodeTables) (ys : List Char) (prev : Option Char) (x : Char)
    (h : x ∈ titleRunes T prev ys) :
    ∃ y ∈ ys, x = T.ToTitle (T.ToLower y) ∨ x = T.ToLower y := by
  induction ys generalizing prev with
  | nil => simp [titleRunes] at h
  | cons ch rest ih =>
    simp only [titleRunes, List.mem_cons] at h
    rcases h with h | h
    · refine ⟨ch, List.mem_cons_self _ _, ?_⟩
      split_ifs at h
      · exact Or.inl h
      · exact Or.inr h
    · obtain ⟨y, hy, hx⟩ := ih (some ch) h
      exact ⟨y, List.mem_cons_of_mem _ hy, hx⟩

/-- `CamelCase` on a string as the camel case writes it: the first codepoint,
then the title case of the others. -/
theorem CamelCase_written (T : UnicodeTables) (hz : isLetterOrDigit T (Char.ofNat 0) = false)
    (y0 : Char) (rest : List Char) (h : CamelWritten T (y0 :: rest)) :
    CamelCase T (utf8 (y0 :: rest)) = some (utf8 (y0 :: titleRunes T (some y0) rest)) := by
  obtain ⟨hall, hhead⟩ := h
  have h0 := hhead y0 (by simp)
  rw [CamelCase_utf8]
  have e : (splitWords T [] (y0 :: rest)).map
      (fun w => mapRunes (titleStep T) (Char.ofNat 32) (w.map T.ToLower)) =
      (splitWords T [] (y0 :: rest)).map (titleWord T) := by
    apply List.map_congr_left
    intro w hw
    exact mapRunes_title_word_of T w
      (fun c hc => (hall c (mem_splitWords T _ w c hw hc).1).2.1)
  rw [e, title_splitWords T (y0 :: rest) [] none
    (fun y hy => camelLetter_classes T y (hall y hy).1)
    (fun _ => Or.inl rfl) (fun h => absurd rfl h)]
  have hlod : ∀ x ∈ titleRunes T (some y0) rest, isLetterOrDigit T x = true := by
    intro x hx
    obtain ⟨y, hy, hxy⟩ := mem_titleRunes T rest _ x hx
    have hfy := hall y (List.mem_cons_of_mem _ hy)
    rcases hxy with rfl | rfl
    · exact hfy.2.2.2
    · exact hfy.2.2.1
  simp only [titleWord, List.nil_append, titleRunes, beginsWord, if_true, mapRunes,
    untitleStep_fst, untitleStep_snd, hz, h0]
  rw [mapRunes_untitle_keep T _ _ (hall y0 (List.mem_cons_self _ _)).2.2.2 hlod]

/-- `CamelCase` returns a string as the camel case writes it unchanged exactly
when the string has no run of capitals. -/
theorem camel_fixed_iff (T : UnicodeTables) (hz : isLetterOrDigit T (Char.ofNat 0) = false)
    (ys : List Char) (h : CamelWritten T ys) :
    CamelCase T (utf8 ys) = some (utf8 ys) ↔ loneCapital T ys = false := by
  cases ys with
  | nil =>
    have e : CamelCase T (utf8 []) = some (utf8 []) := by
      rw [CamelCase_utf8]; rfl
    simp [e, loneCapital]
  | cons y0 rest =>
    rw [CamelCase_written T hz y0 rest h, ← titleRunes_fixed_iff T rest y0
      (fun y hy => (h.1 y (List.mem_cons_of_mem _ hy)).1)]
    constructor
    · intro he
      have := utf8_injective (Option.some.inj he)
      exact (List.cons.inj this).2
    · intro he
      rw [he]

/-- The lowercase form of a letter or number of a string that keeps its words
under the camel case is written as the camel case writes. -/
theorem written_lower (T : UnicodeTables) (c : Char)
    (h : isQuiet T (T.ToLower c) = true ∧ isLetterOrDigit T (T.ToLower c) = true ∧
      isSeparator T (T.ToLower c) = false ∧ T.ToLower (T.ToLower c) = T.ToLower c ∧
      isLetterOrDigit T (T.ToTitle (T.ToLower c)) = true ∧
      T.ToLower (T.ToTitle (T.ToLower c)) = T.ToLower c) :
    (CamelLetter T (T.ToLower c) ∧ isSeparator T (T.ToLower (T.ToLower c)) = false ∧
      isLetterOrDigit T (T.ToLower (T.ToLower c)) = true ∧
      isLetterOrDigit T (T.ToTitle (T.ToLower (T.ToLower c))) = true) ∧
    T.ToLower (T.ToTitle (T.ToLower (T.ToLower c))) = T.ToLower c := by
  obtain ⟨h1, h2, h3, h4, h5, h6⟩ := h
  rw [h4]
  obtain ⟨q1, q2, _⟩ := (isQuiet_iff T _).1 h1
  exact ⟨⟨⟨q1, Or.inl ⟨q2, h4⟩⟩, h3, h2, h5⟩, h6⟩

/-- The title-case form of that lowercase form also. -/
theorem written_title (T : UnicodeTables) (c : Char)
    (h : isQuiet T (T.ToLower c) = true ∧ isLetterOrDigit T (T.ToLower c) = true ∧
      isSeparator T (T.ToLower c) = false ∧ T.ToLower (T.ToLower c) = T.ToLower c ∧
      isLetterOrDigit T (T.ToTitle (T.ToLower c)) = true ∧
      T.ToLower (T.ToTitle (T.ToLower c)) = T.ToLower c)
    (ht : isCapital T (T.ToTitle (T.ToLower c)) = true ∨
      T.ToTitle (T.ToLower c) = T.ToLower c) :
    CamelLetter T (T.ToTitle (T.ToLower c)) ∧
      isSeparator T (T.ToLower (T.ToTitle (T.ToLower c))) = false ∧
      isLetterOrDigit T (T.ToLower (T.ToTitle (T.ToLower c))) = true ∧
      isLetterOrDigit T (T.ToTitle (T.ToLower (T.ToTitle (T.ToLower c)))) = true := by
  obtain ⟨h1, h2, h3, h4, h5, h6⟩ := h
  rw [h6]
  refine ⟨?_, h3, h2, h5⟩
  obtain ⟨q1, q2, _⟩ := (isQuiet_iff T _).1 h1
  rcases ht with ht | ht
  · obtain ⟨c1, c2, c3⟩ := (isCapital_iff T _).1 ht
    refine ⟨c1, Or.inr ⟨c2, c3, by rw [h6], ?_⟩⟩
    rw [h6]
    intro he
    rw [← he, q2] at c2
    exact absurd c2 (by decide)
  · rw [ht]
    exact ⟨q1, Or.inl ⟨q2, h4⟩⟩

/-- The result of `CamelCase` on a string that keeps its words under the camel
case is written as the camel case writes. -/
theorem camelRunes_written (T : UnicodeTables) (cs : List Char) (h : CamelStable T cs)
    (ht : TitleStable T cs) : CamelWritten T (camelRunes T (splitWords T [] cs)) := by
  have hst := camelStable_words T cs h
  have htt : ∀ w ∈ splitWords T [] cs, ∀ c ∈ w,
      isCapital T (T.ToTitle (T.ToLower c)) = true ∨ T.ToTitle (T.ToLower c) = T.ToLower c :=
    fun w hw c hc => ht c (mem_splitWords T cs w c hw hc).1 (mem_splitWords T cs w c hw hc).2
  have hne : ∀ w ∈ splitWords T [] cs, w ≠ [] :=
    fun w hw => (splitWords_mem T cs [] (by simp) w hw).1
  generalize splitWords T [] cs = ws at hst htt hne
  cases ws with
  | nil => exact ⟨fun y hy => by simp [camelRunes] at hy, fun y hy => by simp [camelRunes] at hy⟩
  | cons w ws =>
    constructor
    · intro y hy
      simp only [camelRunes, List.mem_append, List.mem_map, List.mem_flatten] at hy
      rcases hy with ⟨c, hc, rfl⟩ | ⟨t, ⟨v, hv, rfl⟩, hyt⟩
      · exact (written_lower T c (hst w (List.mem_cons_self _ _) c hc)).1
      · cases v with
        | nil => simp [titleWord] at hyt
        | cons c r =>
          simp only [titleWord, List.mem_cons, List.mem_map] at hyt
          rcases hyt with rfl | ⟨d, hd, rfl⟩
          · exact written_title T c
              (hst _ (List.mem_cons_of_mem _ hv) c (List.mem_cons_self _ _))
              (htt _ (List.mem_cons_of_mem _ hv) c (List.mem_cons_self _ _))
          · exact (written_lower T d
              (hst _ (List.mem_cons_of_mem _ hv) d (List.mem_cons_of_mem _ hd))).1
    · cases w with
      | nil => exact absurd rfl (hne [] (List.mem_cons_self _ _))
      | cons c r =>
        intro y hy
        simp only [camelRunes, List.map_cons, List.cons_append, List.take_succ_cons,
          List.take_zero, List.mem_singleton] at hy
        rw [hy]
        exact (written_lower T c
          (hst _ (List.mem_cons_self _ _) c (List.mem_cons_self _ _))).2

set_option maxRecDepth 100000 in
/-- The fact of `TitleStable`, checked on each ASCII codepoint. -/
theorem ascii_title_check (T : UnicodeTables) :
    (List.range 128).all (fun n =>
      !isWordRune (asciiOn T) (Char.ofNat n) ||
        isCapital (asciiOn T) ((asciiOn T).ToTitle ((asciiOn T).ToLower (Char.ofNat n))) ||
        ((asciiOn T).ToTitle ((asciiOn T).ToLower (Char.ofNat n)) ==
          (asciiOn T).ToLower (Char.ofNat n))) = true := by
  rfl

theorem titleStable_of_ascii (T : UnicodeTables) (hA : AsciiStd T) (cs : List Char)
    (h : ∀ c ∈ cs, c.toNat ≤ 0x7F) : TitleStable T cs := by
  intro c hc hw
  have hk := ascii_title_check T
  rw [asciiOn_eq T hA, List.all_eq_true] at hk
  have h1 := hk c.toNat (List.mem_range.2 (by have := h c hc; omega))
  rw [Char.ofNat_toNat] at h1
  simp only [Bool.or_eq_true, Bool.not_eq_true', beq_iff_eq] at h1
  rcases h1 with (h1 | h1) | h1
  · rw [hw] at h1; exact absurd h1 (by decide)
  · exact Or.inl h1
  · exact Or.inr h1

/-! ## The claims -/

/-- C1. For every string `s` (the encoding of a sequence of codepoints),
`Convert(s, "", identity)` is `s` with every codepoint that is neither a letter
nor a number removed, the remaining codepoints kept in their original order. -/
theorem C1_convert_identity_keeps_word_runes (T : UnicodeTables) (cs : List Char) :
    Convert T (utf8 cs) [] id = some (utf8 (cs.filter (isWordRune T))) := by
  rw [Convert_utf8, Join_nil_sep]
  have h := splitWords_flatten T cs []
  simp only [List.nil_append] at h
  rw [show (fun x => id (utf8 x)) = utf8 from rfl, utf8_flatten, h]

/-- C2. Let `a`, `b` be adjacent letter-or-number codepoints of `s`, `b` right
after `a`.  Then `Convert` places a word boundary between `a` and `b` if and
only if either `a` is lowercase-or-number and `b` is uppercase, or `b` is
uppercase and the codepoint right after `b` is lowercase-or-number.  The tables
are assumed to keep uppercase letters apart from lowercase letters and numbers,
and U+FFFD, which the code reads past the end of the string, to be neither. -/
theorem C2_boundary_between_word_runes (T : UnicodeTables) (hC : CaseLaws T)
    (hR : RuneErrorStd T) (pre post : List Char) (a b : Char)
    (ha : isWordRune T a = true) (hb : isWordRune T b = true) :
    boundaryBetween T (pre ++ [a]) (b :: post) = true ↔
      (isLowerOrNumber T a = true ∧ T.IsUpper b = true) ∨
      (T.IsUpper b = true ∧ ∃ c, post.head? = some c ∧ isLowerOrNumber T c = true) := by
  rw [boundaryBetween_iff]
  obtain ⟨E, cur2, hs, hflat, hcur⟩ := splitWords_scan_snoc T pre post a b ha
  rw [hs, ← hflat]
  have hRE : isLowerOrNumber T RuneError = false := by
    simp [isLowerOrNumber, hR.lower, hR.number]
  constructor
  · rintro ⟨W1, W2, hW, hW1, -⟩
    by_cases hc2 : cur2 = []
    · have := hcur.1 hc2
      simp only [Bool.and_eq_true] at this
      exact Or.inl this.2
    · by_cases r2 : (T.IsUpper b && isLowerOrNumber T (nextRune post)) = true
      · right
        simp only [Bool.and_eq_true] at r2
        refine ⟨r2.1, ?_⟩
        cases post with
        | nil => rw [nextRune, hRE] at r2; exact absurd r2.2 (by simp)
        | cons c post => exact ⟨c, rfl, r2.2⟩
      · exfalso
        have hshape : ∃ y tl, y ≠ [] ∧ splitWords T cur2 (b :: post) = (cur2 ++ y) :: tl := by
          rw [splitWords, not_sep_iff]
          simp only [hb, Bool.not_true, Bool.false_eq_true, if_false]
          rw [if_neg r2]
          split_ifs
          · exact ⟨[b], splitWords T [] post, by simp, by simp [emit_ne_nil]⟩
          · obtain ⟨x, tl, hx⟩ := splitWords_head T post (cur2 ++ [b]) (by simp)
            exact ⟨b :: x, tl, by simp, by simp [hx]⟩
        obtain ⟨y, tl, hy, hsh⟩ := hshape
        rw [hsh] at hW
        exact hc2 (no_cut_inside E W1 W2 tl cur2 y hy hW hW1)
  · rintro (⟨hla, hub⟩ | ⟨hub, c, hc, hlc⟩)
    · have hlb : isLowerOrNumber T b = false := by
        simp [isLowerOrNumber, hC.upper_not_lower b hub, hC.upper_not_number b hub]
      have hc2 : cur2 = [] := hcur.2 ⟨by simp [hlb], by simp [hla, hub]⟩
      subst hc2
      refine ⟨E, splitWords T [] (b :: post), rfl, by simp, ?_⟩
      rw [splitWords_flatten, List.nil_append]
    · have r2 : (T.IsUpper b && isLowerOrNumber T (nextRune post)) = true := by
        cases post with
        | nil => simp at hc
        | cons d post =>
          simp only [List.head?_cons, Option.some.injEq] at hc
          subst hc
          simp [nextRune, hub, hlc]
      refine ⟨E ++ emit cur2, splitWords T [b] post, ?_, by simp [emit_flatten], ?_⟩
      · rw [splitWords, not_sep_iff]
        simp only [hb, Bool.not_true, Bool.false_eq_true, if_false]
        rw [if_pos r2, List.append_assoc]
      · rw [splitWords_flatten, List.filter_cons_of_pos hb, List.singleton_append]

/-- Witness of C2: in "TCPOrUDPSocket" a boundary lies between `P` and `O`. -/
theorem C2_boundary_between_word_runes_witness :
    boundaryBetween excerptTables ("TC".data ++ ['P']) ('O' :: "rUDPSocket".data) = true ↔
      (isLowerOrNumber excerptTables 'P' = true ∧ excerptTables.IsUpper 'O' = true) ∨
      (excerptTables.IsUpper 'O' = true ∧
        ∃ c, "rUDPSocket".data.head? = some c ∧ isLowerOrNumber excerptTables c = true) :=
  C2_boundary_between_word_runes excerptTables excerptTables_caseLaws
    excerptTables_runeErrorStd "TC".data "rUDPSocket".data 'P' 'O' (by decide) (by decide)

/-- C3. With tables that are standard on ASCII, `Convert` splits
"TCPOrUDPSocket" into exactly the four words "TCP", "Or", "UDP", "Socket", in
that order, and `Convert("TCPOrUDPSocket", "_", strings.ToLower)` is
"tcp_or_udp_socket". -/
theorem C3_acronym_example (T : UnicodeTables) (hA : AsciiStd T) (hR : RuneErrorStd T) :
    convWords T (str "TCPOrUDPSocket") id =
      some [str "TCP", str "Or", str "UDP", str "Socket"] ∧
    Convert T (str "TCPOrUDPSocket") (str "_") (ToLower T) = some (str "tcp_or_udp_socket") := by
  rw [← stdOn_eq T hA hR]
  exact ⟨rfl, rfl⟩

/-- Witness of C3 on the ASCII tables. -/
theorem C3_acronym_example_witness :
    convWords asciiTables (str "TCPOrUDPSocket") id =
      some [str "TCP", str "Or", str "UDP", str "Socket"] ∧
    Convert asciiTables (str "TCPOrUDPSocket") (str "_") (ToLower asciiTables) =
      some (str "tcp_or_udp_socket") :=
  C3_acronym_example asciiTables asciiTables_asciiStd asciiTables_runeErrorStd

/-- C4. For every string `s`, `Convert` returns, and the words it passes to the
transform `cb` (one call per word, whose results are the list `convWords`) are
the encodings of codepoint sequences `ws` that are each non-empty and made of
letter or number codepoints only; and with tables that are standard on ASCII
`Convert("a,,,b", "-", strings.ToLower)` is "a-b". -/
theorem C4_words_nonempty_alphanumeric (T : UnicodeTables) :
    (∀ cs : List Char, ∃ ws : List (List Char),
      (∀ cb : Bytes → Bytes, convWords T (utf8 cs) cb = some (ws.map (fun w => cb (utf8 w)))) ∧
      ∀ w ∈ ws, w ≠ [] ∧ ∀ c ∈ w, isWordRune T c = true) ∧
    (AsciiStd T → RuneErrorStd T →
      Convert T (str "a,,,b") (str "-") (ToLower T) = some (str "a-b")) := by
  refine ⟨fun cs => ⟨splitWords T [] cs, fun cb => convWords_utf8 T cb cs,
    splitWords_mem T cs [] (by simp)⟩, fun hA hR => ?_⟩
  rw [← stdOn_eq T hA hR]
  rfl

/-- Witness of C4 on the ASCII tables. -/
theorem C4_words_nonempty_alphanumeric_witness :
    Convert asciiTables (str "a,,,b") (str "-") (ToLower asciiTables) = some (str "a-b") :=
  (C4_words_nonempty_alphanumeric asciiTables).2 asciiTables_asciiStd asciiTables_runeErrorStd

/-- C5. For every string `s` without a letter or number codepoint (the empty
string included), every separator `sep` and every transform `cb`, the list of
results of `cb` is empty, so `cb` was applied to no word, and `Convert(s, sep, cb)`
is the empty string. -/
theorem C5_no_word_rune_gives_empty (T : UnicodeTables) (cs : List Char)
    (h : ∀ c ∈ cs, T.IsLetter c = false ∧ T.IsNumber c = false) (sep : Bytes)
    (cb : Bytes → Bytes) :
    convWords T (utf8 cs) cb = some [] ∧ Convert T (utf8 cs) sep cb = some [] := by
  have h1 : splitWords T [] cs = [] :=
    splitWords_no_word_rune T cs [] (fun c hc => by simp [isWordRune, h c hc])
  have h2 : convWords T (utf8 cs) cb = some [] := by rw [convWords_utf8, h1]; rfl
  exact ⟨h2, by rw [Convert, h2]; rfl⟩

/-- Witness of C5: the string ", -" holds separators only. -/
theorem C5_no_word_rune_gives_empty_witness :
    convWords asciiTables (str ", -") (ToUpper asciiTables) = some [] ∧
    Convert asciiTables (str ", -") (str "_") (ToUpper asciiTables) = some [] :=
  C5_no_word_rune_gives_empty asciiTables ", -".data (by decide) (str "_") (ToUpper asciiTables)

/-- C6, amended.  For every string `s`, `Untitle(s)` has the same number of
codepoints as `s`, and its `i`-th codepoint is the lowercase form of `s[i]` when
`i = 0` or `s[i-1]` is neither a letter nor a digit, whatever `s[i]` is, and is
exactly `s[i]` at every other position; with tables that are standard on ASCII,
`Untitle("STRING")` is "sTRING" and `Untitle("A String With Words In It")` is
"a string with words in it". -/
theorem C6_untitle_lowers_run_starts (T : UnicodeTables) (hA : AsciiStd T) :
    (∀ cs : List Char, ∃ out : List Char,
      Untitle T (utf8 cs) = utf8 out ∧ out.length = cs.length ∧
      ∀ i, i < cs.length →
        out.getD i RuneError =
          if i = 0 ∨ isLetterOrDigit T (cs.getD (i - 1) RuneError) = false
          then T.ToLower (cs.getD i RuneError) else cs.getD i RuneError) ∧
    Untitle T (str "STRING") = str "sTRING" ∧
    Untitle T (str "A String With Words In It") = str "a string with words in it" := by
  have h0 : isLetterOrDigit T (Char.ofNat 0) = false := by
    unfold isLetterOrDigit
    rw [hA.letter _ (by decide), hA.digit _ (by decide)]
    rfl
  refine ⟨fun cs => ⟨mapRunes (untitleStep T) (Char.ofNat 0) cs, Untitle_utf8 T cs,
    mapRunes_length _ _ _, fun i hi => ?_⟩, ?_, ?_⟩
  · rw [mapRunes_untitle_getD T cs _ _ i hi]
    by_cases hi0 : i = 0
    · simp [hi0, h0]
    · simp [hi0]
  · rw [str, Untitle_utf8, ← asciiOn_eq T hA]; rfl
  · rw [str, Untitle_utf8, ← asciiOn_eq T hA]; rfl


/-- Witness of C6 on the excerpt of the tables. -/
theorem C6_untitle_lowers_run_starts_witness :
    (∃ out : List Char,
      Untitle excerptTables (utf8 "Ab 1C".data) = utf8 out ∧ out.length = "Ab 1C".data.length) ∧
    Untitle excerptTables (str "STRING") = str "sTRING" ∧
    Untitle excerptTables (str "A String With Words In It") = str "a string with words in it" :=
  ⟨(((C6_untitle_lowers_run_starts excerptTables excerptTables_asciiStd).1 "Ab 1C".data).imp
      (fun _ h => ⟨h.1, h.2.1⟩)),
    (C6_untitle_lowers_run_starts excerptTables excerptTables_asciiStd).2⟩

/-- Counterexample to C6 as stated: U+24B6 is neither a letter nor a digit, and
`Untitle` does not pass it through unchanged: it returns U+24D0, its lowercase
form. -/
theorem C6_counterexample_circled_letter :
    isLetterOrDigit excerptTables (Char.ofNat 0x24B6) = false ∧
    Untitle excerptTables (utf8 [Char.ofNat 0x24B6]) = utf8 [Char.ofNat 0x24D0] ∧
    utf8 [Char.ofNat 0x24D0] ≠ utf8 [Char.ofNat 0x24B6] := by
  decide

/-- C7, the failing input.  On the string U+00B2 `A` (SUPERSCRIPT TWO, then a
capital letter) `UpperCamelCase` returns the string unchanged, and `CamelCase`
lowers its second codepoint, which is not the first one. -/
theorem C7_camel_case_lowers_second_word :
    UpperCamelCase excerptTables (utf8 [Char.ofNat 0xB2, 'A']) =
      some (utf8 [Char.ofNat 0xB2, 'A']) ∧
    CamelCase excerptTables (utf8 [Char.ofNat 0xB2, 'A']) =
      some (utf8 [Char.ofNat 0xB2, 'a']) ∧
    utf8 [Char.ofNat 0xB2, 'a'] ≠ utf8 [Char.ofNat 0xB2, 'A'] := by
  decide

/-- C8, amended.  For every string `s`, `UpperCamelCase(s)` is the concatenation
with no separator, in order, of the words `Convert` finds in `s`, each rewritten
as the title-case form (`unicode.ToTitle`) of the lowercase form of its first
codepoint followed by the lowercase forms of its remaining codepoints; with
tables that are standard on ASCII, `UpperCamelCase("CAMELCaseWithACRONYMS")` is
"CamelCaseWithAcronyms".  The tables are assumed to make no lowercase form of a
letter or number a separator of `strings.Title`. -/
theorem C8_upper_camel_titles_words (T : UnicodeTables) (hL : TitleLaws T) :
    (∀ cs : List Char, ∃ ws : List (List Char),
      convWords T (utf8 cs) id = some (ws.map utf8) ∧
      UpperCamelCase T (utf8 cs) = some (utf8 (ws.map (titleWord T)).flatten)) ∧
    (AsciiStd T → RuneErrorStd T →
      UpperCamelCase T (str "CAMELCaseWithACRONYMS") = some (str "CamelCaseWithAcronyms")) := by
  refine ⟨fun cs => ⟨splitWords T [] cs, convWords_utf8 T id cs, ?_⟩, fun hA hR => ?_⟩
  · rw [UpperCamelCase_utf8]
    congr 3
    apply List.map_congr_left
    intro w hw
    exact mapRunes_title_word T hL w (splitWords_mem T cs [] (by simp) w hw).2
  · rw [str, UpperCamelCase_utf8, ← stdOn_eq T hA hR]
    rfl


/-- Witness of C8 on the excerpt of the tables. -/
theorem C8_upper_camel_titles_words_witness :
    (∃ ws : List (List Char),
      convWords excerptTables (utf8 "fooBAR".data) id = some (ws.map utf8) ∧
      UpperCamelCase excerptTables (utf8 "fooBAR".data) =
        some (utf8 (ws.map (titleWord excerptTables)).flatten)) ∧
    UpperCamelCase excerptTables (str "CAMELCaseWithACRONYMS") =
      some (str "CamelCaseWithAcronyms") :=
  ⟨(C8_upper_camel_titles_words excerptTables excerptTables_titleLaws).1 "fooBAR".data,
    (C8_upper_camel_titles_words excerptTables excerptTables_titleLaws).2
      excerptTables_asciiStd excerptTables_runeErrorStd⟩

/-- Counterexample to C8 as stated: the string made of U+01C6 is one word, whose
uppercase form is U+01C4, and `UpperCamelCase` returns U+01C5, its title-case
form. -/
theorem C8_counterexample_titlecase_digraph :
    convWords excerptTables (utf8 [Char.ofNat 0x1C6]) id = some [utf8 [Char.ofNat 0x1C6]] ∧
    UpperCamelCase excerptTables (utf8 [Char.ofNat 0x1C6]) = some (utf8 [Char.ofNat 0x1C5]) ∧
    excerptTables.ToUpper (Char.ofNat 0x1C6) = Char.ofNat 0x1C4 ∧
    utf8 [Char.ofNat 0x1C5] ≠ utf8 [Char.ofNat 0x1C4] := by
  decide

/-- C9, amended.  For every string `s` that is stable under the case mappings
(the lowercase form of each letter or number of `s` is a letter or number, is
not uppercase, and has the same uppercase form), and so for every string of
ASCII codepoints, `UpperSnakeCase(SnakeCase(s)) = UpperSnakeCase(s)`.  The tables
are assumed standard on ASCII, where the underscore is. -/
theorem C9_upper_snake_of_snake (T : UnicodeTables) (hA : AsciiStd T) :
    (∀ cs : List Char, CaseStable T cs →
      ∃ r, UpperSnakeCase T (utf8 cs) = some r ∧
        (SnakeCase T (utf8 cs)).bind (UpperSnakeCase T) = some r) ∧
    (∀ cs : List Char, (∀ c ∈ cs, c.toNat ≤ 0x7F) →
      ∃ r, UpperSnakeCase T (utf8 cs) = some r ∧
        (SnakeCase T (utf8 cs)).bind (UpperSnakeCase T) = some r) := by
  have key : ∀ cs : List Char, CaseStable T cs →
      ∃ r, UpperSnakeCase T (utf8 cs) = some r ∧
        (SnakeCase T (utf8 cs)).bind (UpperSnakeCase T) = some r := by
    intro cs h
    refine ⟨_, UpperSnakeCase_utf8 T cs, ?_⟩
    rw [upperSnake_snake T (asciiStd_underscore T hA) cs h, UpperSnakeCase_utf8]
  exact ⟨key, fun cs h => key cs (caseStable_of_ascii T hA cs h)⟩

/-- Witness of C9: a string with a Cyrillic capital letter, and an ASCII one. -/
theorem C9_upper_snake_of_snake_witness :
    (∃ r, UpperSnakeCase excerptTables (utf8 [Char.ofNat 0x411, 'a', 'B', '_', '1']) = some r ∧
      (SnakeCase excerptTables (utf8 [Char.ofNat 0x411, 'a', 'B', '_', '1'])).bind
        (UpperSnakeCase excerptTables) = some r) ∧
    (∃ r, UpperSnakeCase excerptTables (utf8 "fooBar_baz1".data) = some r ∧
      (SnakeCase excerptTables (utf8 "fooBar_baz1".data)).bind
        (UpperSnakeCase excerptTables) = some r) :=
  ⟨(C9_upper_snake_of_snake excerptTables excerptTables_asciiStd).1
      [Char.ofNat 0x411, 'a', 'B', '_', '1'] (by unfold CaseStable; decide),
    (C9_upper_snake_of_snake excerptTables excerptTables_asciiStd).2
      "fooBar_baz1".data (by decide)⟩

/-- Counterexample to C9 as stated: U+0130 is a letter; `UpperSnakeCase` keeps
it, and `SnakeCase` turns it into `i`, which `UpperSnakeCase` turns into `I`. -/
theorem C9_counterexample_dotted_capital_i :
    excerptTables.IsLetter (Char.ofNat 0x130) = true ∧
    UpperSnakeCase excerptTables (utf8 [Char.ofNat 0x130]) = some (utf8 [Char.ofNat 0x130]) ∧
    (SnakeCase excerptTables (utf8 [Char.ofNat 0x130])).bind (UpperSnakeCase excerptTables) =
      some (utf8 ['I']) ∧
    utf8 ['I'] ≠ utf8 [Char.ofNat 0x130] := by
  decide

/-- C10. Numbers behave like lowercase letters for word splitting: when the
string `s2` is `s` with each number codepoint replaced by a lowercase letter,
`Convert` finds as many words in `s2` as in `s`, and corresponding words have
the same number of codepoints; with tables that are standard on ASCII, "aa4N7"
splits as "aa4" and "N7", and `CamelCase("aa4N7")` is "aa4N7".  The tables are
assumed to keep uppercase letters apart from lowercase letters and numbers, and
to make every lowercase letter a letter. -/
theorem C10_numbers_split_as_lowercase (T : UnicodeTables) (hC : CaseLaws T) :
    (∀ cs cs2 : List Char, List.Forall₂ (numberToLower T) cs cs2 →
      ∃ ws ws2 : List (List Char),
        convWords T (utf8 cs) id = some (ws.map utf8) ∧
        convWords T (utf8 cs2) id = some (ws2.map utf8) ∧
        ws.map List.length = ws2.map List.length) ∧
    (AsciiStd T → RuneErrorStd T →
      convWords T (str "aa4N7") id = some [str "aa4", str "N7"] ∧
      CamelCase T (str "aa4N7") = some (str "aa4N7")) := by
  refine ⟨fun cs cs2 h => ⟨splitWords T [] cs, splitWords T [] cs2, convWords_utf8 T id cs,
    convWords_utf8 T id cs2, ?_⟩, fun hA hR => ?_⟩
  · exact splitWords_lengths T cs cs2
      (h.imp (fun c d hcd => sameClass_of_numberToLower T hC c d hcd)) [] [] rfl
  · refine ⟨?_, ?_⟩
    · rw [← stdOn_eq T hA hR]; rfl
    · rw [str, CamelCase_utf8, ← stdOn_eq T hA hR]; rfl

/-- Witness of C10: "a12C3" and "axyCz", and the example. -/
theorem C10_numbers_split_as_lowercase_witness :
    (∃ ws ws2 : List (List Char),
        convWords excerptTables (utf8 ['a', '1', '2', 'C', '3']) id = some (ws.map utf8) ∧
        convWords excerptTables (utf8 ['a', 'x', 'y', 'C', 'z']) id = some (ws2.map utf8) ∧
        ws.map List.length = ws2.map List.length) ∧
    (convWords excerptTables (str "aa4N7") id = some [str "aa4", str "N7"] ∧
      CamelCase excerptTables (str "aa4N7") = some (str "aa4N7")) :=
  ⟨(C10_numbers_split_as_lowercase excerptTables excerptTables_caseLaws).1
      ['a', '1', '2', 'C', '3'] ['a', 'x', 'y', 'C', 'z']
      (.cons (by unfold numberToLower; decide) (.cons (by unfold numberToLower; decide)
        (.cons (by unfold numberToLower; decide) (.cons (by unfold numberToLower; decide)
          (.cons (by unfold numberToLower; decide) .nil))))),
    (C10_numbers_split_as_lowercase excerptTables excerptTables_caseLaws).2
      excerptTables_asciiStd excerptTables_runeErrorStd⟩

/-- C11, amended.  For every valid string `s`, `SnakeCase(s)` contains no
codepoint other than letters, numbers and `_`, it does not begin or end with
`_`, and it never contains two consecutive `_`.  It contains no uppercase letter
when the lowercase form of each letter or number of `s` is not uppercase, and so
when `s` is a string of ASCII codepoints.  The tables are assumed standard on
ASCII, where the underscore is, and to map letters and numbers to letters and
numbers in lower case. -/
theorem C11_snake_case_well_formed (T : UnicodeTables) (hA : AsciiStd T) (hL : LowerLaws T)
    (cs : List Char) :
    ∃ out : List Char, SnakeCase T (utf8 cs) = some (utf8 out) ∧
      (∀ c ∈ out, T.IsLetter c = true ∨ T.IsNumber c = true ∨ c = '_') ∧
      out.head? ≠ some '_' ∧ out.getLast? ≠ some '_' ∧
      (∀ l r : List Char, out ≠ l ++ '_' :: '_' :: r) ∧
      ((∀ c ∈ cs, isWordRune T c = true → T.IsUpper (T.ToLower c) = false) →
        ∀ c ∈ out, T.IsUpper c = false) ∧
      ((∀ c ∈ cs, c.toNat ≤ 0x7F) → ∀ c ∈ out, T.IsUpper c = false) := by
  have hu := asciiStd_underscore T hA
  have hup : T.IsUpper (Char.ofNat 95) = false := by
    rw [hA.upper _ (by decide)]; rfl
  have hw := snake_words T cs
  have hsep : ∀ w ∈ (splitWords T [] cs).map (List.map T.ToLower),
      w ≠ [] ∧ ∀ c ∈ w, c ≠ Char.ofNat 95 := by
    intro w hm
    refine ⟨(hw w hm).1, fun c hc he => ?_⟩
    obtain ⟨d, _, hd2, rfl⟩ := (hw w hm).2 c hc
    have := hL.wordRune d hd2
    rw [he, hu] at this
    exact Bool.false_ne_true this
  have hlow : (∀ c ∈ cs, isWordRune T c = true → T.IsUpper (T.ToLower c) = false) →
      ∀ c ∈ joinRunes ((splitWords T [] cs).map (List.map T.ToLower)) [Char.ofNat 95],
        T.IsUpper c = false := by
    intro h c hc
    rcases mem_joinRunes _ _ c hc with h1 | ⟨w, hm, hcw⟩
    · rw [List.mem_singleton.1 h1]; exact hup
    · obtain ⟨d, hd1, hd2, rfl⟩ := (hw w hm).2 c hcw
      exact h d hd1 hd2
  refine ⟨_, SnakeCase_utf8 T cs, fun c hc => ?_, joinRunes_head _ _ hsep,
    joinRunes_last _ _ hsep, joinRunes_noDouble _ _ hsep, hlow, fun h7 => hlow ?_⟩
  · rcases mem_joinRunes _ _ c hc with h1 | ⟨w, hm, hcw⟩
    · exact Or.inr (Or.inr (List.mem_singleton.1 h1))
    · obtain ⟨d, _, hd2, rfl⟩ := (hw w hm).2 c hcw
      have := hL.wordRune d hd2
      unfold isWordRune at this
      rcases Bool.or_eq_true _ _ ▸ this with h2 | h2
      · exact Or.inl h2
      · exact Or.inr (Or.inl h2)
  · intro c hc hwc
    exact (caseStable_of_ascii T hA cs h7 c hc hwc).2.1

/-- Witness of C11 on the excerpt of the tables, for a string with a Cyrillic
capital letter, spaces and underscores. -/
theorem C11_snake_case_well_formed_witness :
    ∃ out : List Char,
      SnakeCase excerptTables (utf8 (Char.ofNat 0x411 :: "fooBar  baz__Q1_".data)) =
        some (utf8 out) ∧
      (∀ c ∈ out, excerptTables.IsLetter c = true ∨ excerptTables.IsNumber c = true ∨
        c = '_') ∧
      out.head? ≠ some '_' ∧ out.getLast? ≠ some '_' ∧
      (∀ l r : List Char, out ≠ l ++ '_' :: '_' :: r) ∧
      ((∀ c ∈ Char.ofNat 0x411 :: "fooBar  baz__Q1_".data, isWordRune excerptTables c = true →
          excerptTables.IsUpper (excerptTables.ToLower c) = false) →
        ∀ c ∈ out, excerptTables.IsUpper c = false) ∧
      ((∀ c ∈ Char.ofNat 0x411 :: "fooBar  baz__Q1_".data, c.toNat ≤ 0x7F) →
        ∀ c ∈ out, excerptTables.IsUpper c = false) :=
  C11_snake_case_well_formed excerptTables excerptTables_asciiStd excerptTables_lowerLaws
    (Char.ofNat 0x411 :: "fooBar  baz__Q1_".data)

/-- Counterexample to C11 as stated: U+1D400 is an uppercase letter that has no
lowercase form; the string made of it is one word, and `SnakeCase` returns it
unchanged. -/
theorem C11_counterexample_capital_without_lowercase :
    mathTables.IsLetter (Char.ofNat 0x1D400) = true ∧
    mathTables.IsUpper (Char.ofNat 0x1D400) = true ∧
    mathTables.ToLower (Char.ofNat 0x1D400) = Char.ofNat 0x1D400 ∧
    SnakeCase mathTables (utf8 [Char.ofNat 0x1D400]) = some (utf8 [Char.ofNat 0x1D400]) := by
  decide

/-- C12, amended.  `SnakeCase(SnakeCase(s)) = SnakeCase(s)` for every valid
string `s` in which the lowercase form of each letter or number is not
uppercase, and so for every string of ASCII codepoints; "snake_case" is returned
unchanged.  The tables are assumed standard on ASCII, and their lowercase
mapping to map a lowercase form to itself and letters and numbers to letters
and numbers. -/
theorem C12_snake_case_idempotent (T : UnicodeTables) (hA : AsciiStd T) (hL : LowerLaws T) :
    (∀ cs : List Char,
      (∀ c ∈ cs, isWordRune T c = true → T.IsUpper (T.ToLower c) = false) →
      ∃ r, SnakeCase T (utf8 cs) = some r ∧ SnakeCase T r = some r) ∧
    (∀ cs : List Char, (∀ c ∈ cs, c.toNat ≤ 0x7F) →
      ∃ r, SnakeCase T (utf8 cs) = some r ∧ SnakeCase T r = some r) ∧
    (RuneErrorStd T → SnakeCase T (str "snake_case") = some (str "snake_case")) := by
  have key := snake_snake T (asciiStd_underscore T hA) hL
  refine ⟨key, fun cs h7 => key cs (fun c hc hwc => ?_), fun hR => ?_⟩
  · exact (caseStable_of_ascii T hA cs h7 c hc hwc).2.1
  · rw [str, SnakeCase_utf8, ← stdOn_eq T hA hR]
    rfl

/-- Witness of C12 on the excerpt of the tables: a string with a Cyrillic
capital letter, an ASCII string, and the example. -/
theorem C12_snake_case_idempotent_witness :
    (∃ r, SnakeCase excerptTables (utf8 [Char.ofNat 0x411, 'a', 'B', ' ', '1']) = some r ∧
      SnakeCase excerptTables r = some r) ∧
    (∃ r, SnakeCase excerptTables (utf8 "fooBar  baz__Q1_".data) = some r ∧
      SnakeCase excerptTables r = some r) ∧
    SnakeCase excerptTables (str "snake_case") = some (str "snake_case") :=
  ⟨(C12_snake_case_idempotent excerptTables excerptTables_asciiStd excerptTables_lowerLaws).1
      [Char.ofNat 0x411, 'a', 'B', ' ', '1'] (by decide),
    (C12_snake_case_idempotent excerptTables excerptTables_asciiStd excerptTables_lowerLaws).2.1
      "fooBar  baz__Q1_".data (by decide),
    (C12_snake_case_idempotent excerptTables excerptTables_asciiStd excerptTables_lowerLaws).2.2
      excerptTables_runeErrorStd⟩

/-- Counterexample to C12 as stated: `B` followed by U+1D400, an uppercase
letter without a lowercase form, is one word; `SnakeCase` lowers the `B`, and
in the result a lowercase letter is followed by an uppercase one, so `SnakeCase`
splits the result in two words. -/
theorem C12_counterexample_capital_without_lowercase :
    SnakeCase mathTables (utf8 ['B', Char.ofNat 0x1D400]) =
      some (utf8 ['b', Char.ofNat 0x1D400]) ∧
    SnakeCase mathTables (utf8 ['b', Char.ofNat 0x1D400]) =
      some (utf8 ['b', '_', Char.ofNat 0x1D400]) ∧
    utf8 ['b', '_', Char.ofNat 0x1D400] ≠ utf8 ['b', Char.ofNat 0x1D400] := by
  decide

/-- C13, amended.  `SnakeCase(CamelCase(s)) = SnakeCase(s)` for every valid
string `s` that keeps its words under the camel case (`CamelStable`) and in
which each word after the first begins with a codepoint that a title writes as
a capital, no two adjacent words after the first having one codepoint; and so
for every string `s` of ASCII codepoints in which each word after the first
begins with a letter, no two adjacent words after the first having one
codepoint.  `SnakeCase("camelCase")` is "camel_case" and
`CamelCase("snake_case")` is "snakeCase".  The tables are assumed standard on
ASCII and at U+FFFD. -/
theorem C13_snake_of_camel (T : UnicodeTables) (hA : AsciiStd T) (hR : RuneErrorStd T) :
    (∀ (cs : List Char) (ws : List (List Char)),
      convWords T (utf8 cs) id = some (ws.map utf8) → CamelStable T cs → CamelShape T ws →
      ∃ r, CamelCase T (utf8 cs) = some r ∧ SnakeCase T r = SnakeCase T (utf8 cs)) ∧
    (∀ (cs : List Char) (ws : List (List Char)),
      convWords T (utf8 cs) id = some (ws.map utf8) → (∀ c ∈ cs, c.toNat ≤ 0x7F) →
      (∀ v ∈ ws.tail, startsWith T.IsLetter v = true) → noAdjacentSingles ws.tail = true →
      ∃ r, CamelCase T (utf8 cs) = some r ∧ SnakeCase T r = SnakeCase T (utf8 cs)) ∧
    SnakeCase T (str "camelCase") = some (str "camel_case") ∧
    CamelCase T (str "snake_case") = some (str "snakeCase") := by
  have hz := asciiStd_zero T hA
  refine ⟨fun cs ws hws h hS => ?_, fun cs ws hws h7 h1 h2 => ?_, ?_, ?_⟩
  · rw [words_eq_splitWords T cs ws hws] at hS
    exact snake_camel T hz cs h hS
  · rw [words_eq_splitWords T cs ws hws] at h1 h2
    exact snake_camel T hz cs (camelStable_of_ascii T hA cs h7)
      (camelShape_of_ascii T hA cs h7 h1 h2)
  · rw [str, SnakeCase_utf8, ← stdOn_eq T hA hR]; rfl
  · rw [str, CamelCase_utf8, ← stdOn_eq T hA hR]; rfl

/-- Witness of C13 on the excerpt of the tables: a string with Cyrillic
letters, an ASCII string, and the examples. -/
theorem C13_snake_of_camel_witness :
    (∃ r, CamelCase excerptTables
        (utf8 "бвГд жЗи_x".data) = some r ∧
      SnakeCase excerptTables r = SnakeCase excerptTables
        (utf8 "бвГд жЗи_x".data)) ∧
    (∃ r, CamelCase excerptTables (utf8 "foo2Bar_b_azQ".data) = some r ∧
      SnakeCase excerptTables r = SnakeCase excerptTables (utf8 "foo2Bar_b_azQ".data)) ∧
    SnakeCase excerptTables (str "camelCase") = some (str "camel_case") ∧
    CamelCase excerptTables (str "snake_case") = some (str "snakeCase") :=
  ⟨(C13_snake_of_camel excerptTables excerptTables_asciiStd excerptTables_runeErrorStd).1
      "бвГд жЗи_x".data ["бв".data, "Гд".data, "ж".data, "Зи".data, "x".data]
      (by decide) (by unfold CamelStable; decide) (by unfold CamelShape; decide),
    (C13_snake_of_camel excerptTables excerptTables_asciiStd excerptTables_runeErrorStd).2.1
      "foo2Bar_b_azQ".data ["foo2".data, "Bar".data, "b".data, "az".data, "Q".data]
      (by decide) (by decide) (by decide) (by decide),
    (C13_snake_of_camel excerptTables excerptTables_asciiStd excerptTables_runeErrorStd).2.2⟩

/-- Counterexample to C13 as stated.  The words of "a_1" are "a" and "1";
`CamelCase` returns "a1", one word, so `SnakeCase` of it is "a1", not "a_1".
The words of "x_y_z" are "x", "y" and "z"; `CamelCase` returns "xYZ", whose words
are "x" and "YZ", so `SnakeCase` of it is "x_yz", not "x_y_z". -/
theorem C13_counterexample_digit_word :
    CamelCase excerptTables (str "a_1") = some (str "a1") ∧
    SnakeCase excerptTables (str "a1") = some (str "a1") ∧
    SnakeCase excerptTables (str "a_1") = some (str "a_1") ∧
    str "a1" ≠ str "a_1" ∧
    CamelCase excerptTables (str "x_y_z") = some (str "xYZ") ∧
    SnakeCase excerptTables (str "xYZ") = some (str "x_yz") ∧
    SnakeCase excerptTables (str "x_y_z") = some (str "x_y_z") ∧
    str "x_yz" ≠ str "x_y_z" := by
  decide

/-- C14. `Convert` with the empty separator and the identity transform is
idempotent: for every string `s` it returns a string `r`, and on `r` it returns
`r` again. -/
theorem C14_convert_identity_idempotent (T : UnicodeTables) (cs : List Char) :
    ∃ r, Convert T (utf8 cs) [] id = some r ∧ Convert T r [] id = some r := by
  refine ⟨_, C1_convert_identity_keeps_word_runes T cs, ?_⟩
  rw [C1_convert_identity_keeps_word_runes, List.filter_filter]
  simp

/-- C15. `Convert` is total on well-formed input: for every valid string `s`,
every separator and every transform it returns a result, that is, no slice it
takes is out of range: a call `processNextWord(wordEnd)` returns only when
`0 <= prevWordStart <= wordEnd <= len(s)`, and an iteration of the loop only
when the lookahead offset `nextChOffset` satisfies `nextChOffset <= len(s)`. -/
theorem C15_convert_total_on_valid (T : UnicodeTables) :
    (∀ (cs : List Char) (sep : Bytes) (cb : Bytes → Bytes),
      ∃ r, Convert T (utf8 cs) sep cb = some r) ∧
    (∀ (s : Bytes) (cb : Bytes → Bytes) (st st1 : ConvState) (wordEnd : Nat),
      processNextWord s cb st wordEnd = some st1 →
        0 ≤ st.prevWordStart ∧ st.prevWordStart ≤ wordEnd ∧ wordEnd ≤ s.length) ∧
    (∀ (s : Bytes) (cb : Bytes → Bytes) (st st1 : ConvState) (i : Nat) (ch : Char),
      convStep T s cb st i ch = some st1 → i + RuneLen ch ≤ s.length) :=
  ⟨fun cs sep cb => ⟨_, Convert_utf8 T sep cb cs⟩,
    fun _ _ _ _ _ h => ⟨Nat.zero_le _, processNextWord_some h⟩,
    fun _ _ _ _ _ _ h => convStep_some h⟩

/-- Witness of C15: a conversion that returns, a call of `processNextWord` and
an iteration of the loop on the string "ab". -/
theorem C15_convert_total_on_valid_witness :
    (∃ r, Convert excerptTables (utf8 "fooBar baz".data) (str "_") (ToLower excerptTables) =
      some r) ∧
    (0 ≤ 0 ∧ 0 ≤ 1 ∧ 1 ≤ (str "ab").length) ∧
    0 + RuneLen 'a' ≤ (str "ab").length :=
  ⟨(C15_convert_total_on_valid excerptTables).1 "fooBar baz".data (str "_")
      (ToLower excerptTables),
    (C15_convert_total_on_valid excerptTables).2.1 (str "ab") id ⟨[], 0⟩ ⟨[str "a"], 1⟩ 1
      (by decide),
    (C15_convert_total_on_valid excerptTables).2.2 (str "ab") id ⟨[], 0⟩ ⟨[], 0⟩ 0 'a'
      (by decide)⟩

/-- C16, the failing input.  On the string of the single byte `0xFF`, which is
not valid UTF-8, `range` yields U+FFFD at offset 0, `utf8.RuneLen` of it is 3,
the slice `s[3:]` is out of range for a string of length 1, and `Convert`
panics, whatever the tables, the separator and the transform are.  On the bytes
of "a", `0xFF`, "bCc" the invalid byte sets `prevWordStart` to 4, and the call
`processNextWord(3)` after `b` takes the slice `s[4:3]`. -/
theorem C16_convert_panics_on_invalid_byte (T : UnicodeTables) (sep : Bytes)
    (cb : Bytes → Bytes) :
    rangeStr [0xFF] = [(0, RuneError)] ∧ RuneLen RuneError = 3 ∧
    slice [0xFF] (0 + RuneLen RuneError) 1 = none ∧
    Convert T [0xFF] sep cb = none ∧
    Convert excerptTables [97, 0xFF, 98, 67, 99] sep cb = none := by
  exact ⟨rfl, rfl, rfl, rfl, rfl⟩

/-- C17, amended.  `UpperCamelCase` is a shorthand for `Convert` with the empty
separator: for every string `s`, `UpperCamelCase(s) = Convert(s, "",
Title ∘ ToLower)`; on a valid string it equals `Convert(s, "-", Title ∘ ToLower)`
exactly when `Convert` finds at most one word in `s`. -/
theorem C17_upper_camel_is_convert_without_separator (T : UnicodeTables) :
    (∀ s : Bytes, UpperCamelCase T s = Convert T s [] (fun w => Title T (ToLower T w))) ∧
    (∀ cs : List Char, ∃ ws : List Bytes, convWords T (utf8 cs) id = some ws ∧
      (UpperCamelCase T (utf8 cs) =
          Convert T (utf8 cs) (str "-") (fun w => Title T (ToLower T w)) ↔
        ws.length ≤ 1)) := by
  refine ⟨fun s => rfl, fun cs => ⟨_, convWords_utf8 T id cs, ?_⟩⟩
  rw [UpperCamelCase, Convert_utf8, Convert_utf8, List.length_map]
  constructor
  · intro h
    have h2 := congrArg List.length (Option.some.inj h)
    rw [Join_length, Join_length, List.length_map] at h2
    have h3 : (str "-").length = 1 := rfl
    rw [h3] at h2
    simp only [List.length_nil, Nat.mul_zero, Nat.mul_one, Nat.add_zero] at h2
    omega
  · intro h
    rw [Join_short _ [] (str "-") (by rw [List.length_map]; exact h)]

/-- Counterexample to C17 as stated: `UpperCamelCase("a b")` is "AB", and
`Convert("a b", "-", Title ∘ ToLower)` is "A-B". -/
theorem C17_counterexample_two_words :
    UpperCamelCase excerptTables (str "a b") = some (str "AB") ∧
    Convert excerptTables (str "a b") (str "-")
      (fun w => Title excerptTables (ToLower excerptTables w)) = some (str "A-B") ∧
    str "AB" ≠ str "A-B" := by
  decide

/-- C18. Tokenization is compositional across separators: for all strings
`s1`, `s2` and every codepoint `c` that is neither a letter nor a number, the
words `Convert` finds in `s1 ++ c ++ s2` are the words of `s1` followed by the
words of `s2`.  The tables are assumed to make every lowercase letter a letter,
and U+FFFD, which the code reads past the end of `s1`, no letter and no
number. -/
theorem C18_words_compose_across_separator (T : UnicodeTables) (hC : CaseLaws T)
    (hR : RuneErrorStd T) (s1 s2 : List Char) (c : Char)
    (hc : T.IsLetter c = false ∧ T.IsNumber c = false) :
    ∃ ws1 ws2 : List Bytes, convWords T (utf8 s1) id = some ws1 ∧
      convWords T (utf8 s2) id = some ws2 ∧
      convWords T (utf8 (s1 ++ c :: s2)) id = some (ws1 ++ ws2) := by
  refine ⟨_, _, convWords_utf8 T id s1, convWords_utf8 T id s2, ?_⟩
  rw [convWords_utf8, splitWords_append_sep T hC hR s1 s2 [] c (by simp [isWordRune, hc]),
    List.map_append]

/-- Witness of C18: "fooBAR", a hyphen, "HTTPServer". -/
theorem C18_words_compose_across_separator_witness :
    ∃ ws1 ws2 : List Bytes, convWords excerptTables (utf8 "fooBAR".data) id = some ws1 ∧
      convWords excerptTables (utf8 "HTTPServer".data) id = some ws2 ∧
      convWords excerptTables (utf8 ("fooBAR".data ++ '-' :: "HTTPServer".data)) id =
        some (ws1 ++ ws2) :=
  C18_words_compose_across_separator excerptTables excerptTables_caseLaws
    excerptTables_runeErrorStd "fooBAR".data "HTTPServer".data '-' (by decide)


/-- C19.  `Untitle` is idempotent, on every string of bytes, valid UTF-8 or not,
when the lowercase mapping of the tables maps a lowercase form to itself and
keeps a codepoint on its side of the test "letter or decimal digit". -/
theorem C19_untitle_idempotent (T : UnicodeTables) (hL : LowerLaws T) (s : Bytes) :
    Untitle T (Untitle T s) = Untitle T s := by
  have h : Untitle T s = utf8 (mapRunes (untitleStep T) (Char.ofNat 0) (runes s)) := rfl
  rw [h, Untitle_utf8, mapRunes_untitle_twice T hL _ _ _ rfl]

/-- Witness of C19: the excerpt of the tables has the laws; the string is
`A String, ÀB` followed by a byte that is no UTF-8. -/
theorem C19_untitle_idempotent_witness :
    LowerLaws excerptTables ∧
    Untitle excerptTables (Untitle excerptTables (utf8 "A String, ÀB".data ++ [0xFF])) =
      Untitle excerptTables (utf8 "A String, ÀB".data ++ [0xFF]) :=
  ⟨excerptTables_lowerLaws,
    C19_untitle_idempotent excerptTables excerptTables_lowerLaws
      (utf8 "A String, ÀB".data ++ [0xFF])⟩

/-- C20, amended.  For every string `s` of ASCII codepoints,
`CamelCase(CamelCase(s)) = CamelCase(s)` if and only if `CamelCase(s)` has no lone
capital: no uppercase letter, other than the first codepoint, that neither
directly follows a lowercase letter or number nor is directly followed by one.
The same equivalence holds for every valid string `s` for which `CamelCase(s)`
is written as the camel case writes (`CamelWritten`), as it is for every string
of ASCII codepoints.  "camelCase" and "aa4N7" are returned unchanged.  The tables
are assumed standard on ASCII and at U+FFFD. -/
theorem C20_camel_case_idempotent (T : UnicodeTables) (hA : AsciiStd T) (hR : RuneErrorStd T) :
    (∀ cs : List Char, (∀ c ∈ cs, c.toNat ≤ 0x7F) →
      ∃ ys, CamelCase T (utf8 cs) = some (utf8 ys) ∧ CamelWritten T ys ∧
        (CamelCase T (utf8 ys) = some (utf8 ys) ↔ loneCapital T ys = false)) ∧
    (∀ cs ys : List Char, CamelCase T (utf8 cs) = some (utf8 ys) → CamelWritten T ys →
      (CamelCase T (utf8 ys) = some (utf8 ys) ↔ loneCapital T ys = false)) ∧
    CamelCase T (str "camelCase") = some (str "camelCase") ∧
    CamelCase T (str "aa4N7") = some (str "aa4N7") := by
  have hz := asciiStd_zero T hA
  refine ⟨fun cs h7 => ?_, fun cs ys _ hw => camel_fixed_iff T hz ys hw, ?_, ?_⟩
  · have hw := camelRunes_written T cs (camelStable_of_ascii T hA cs h7)
      (titleStable_of_ascii T hA cs h7)
    exact ⟨_, CamelCase_camelRunes T hz cs (camelStable_of_ascii T hA cs h7), hw,
      camel_fixed_iff T hz _ hw⟩
  · rw [str, CamelCase_utf8, ← stdOn_eq T hA hR]; rfl
  · rw [str, CamelCase_utf8, ← stdOn_eq T hA hR]; rfl

/-- Witness of C20 on the excerpt of the tables: an ASCII string with words that
begin with a digit; a string with Cyrillic letters and U+0130, for which
`CamelCase` returns U+0431 U+0432 U+0413 U+0434 `I` U+0416 U+0417; and the
examples. -/
theorem C20_camel_case_idempotent_witness :
    (∃ ys, CamelCase excerptTables (utf8 "foo_1_b_c2 D".data) = some (utf8 ys) ∧
      CamelWritten excerptTables ys ∧
      (CamelCase excerptTables (utf8 ys) = some (utf8 ys) ↔
        loneCapital excerptTables ys = false)) ∧
    (CamelCase excerptTables (utf8 "бвГдIЖЗ".data) = some (utf8 "бвГдIЖЗ".data) ↔
      loneCapital excerptTables "бвГдIЖЗ".data = false) ∧
    CamelCase excerptTables (str "camelCase") = some (str "camelCase") ∧
    CamelCase excerptTables (str "aa4N7") = some (str "aa4N7") :=
  ⟨(C20_camel_case_idempotent excerptTables excerptTables_asciiStd
      excerptTables_runeErrorStd).1 "foo_1_b_c2 D".data (by decide),
    (C20_camel_case_idempotent excerptTables excerptTables_asciiStd
      excerptTables_runeErrorStd).2.1 "бв_гд İ ж_з".data "бвГдIЖЗ".data
      (by decide) (by unfold CamelWritten CamelLetter; decide),
    (C20_camel_case_idempotent excerptTables excerptTables_asciiStd
      excerptTables_runeErrorStd).2.2⟩

/-- Counterexample to C20 as stated.  The words of "x_y_z" are "x", "y" and "z",
and `CamelCase` returns "xYZ"; the words of "xYZ" are "x" and "YZ", and `CamelCase`
returns "xYz". -/
theorem C20_counterexample_one_letter_words :
    convWords excerptTables (str "x_y_z") id = some [str "x", str "y", str "z"] ∧
    CamelCase excerptTables (str "x_y_z") = some (str "xYZ") ∧
    convWords excerptTables (str "xYZ") id = some [str "x", str "YZ"] ∧
    CamelCase excerptTables (str "xYZ") = some (str "xYz") ∧
    str "xYz" ≠ str "xYZ" := by
  decide

end Casify
